import Mathlib

/-! Verification development for the PanDelos-plus homology core: a shallow
embedding of the streaming Generalized Jaccard similarity and the two-phase
bidirectional best hit (BBH) extraction of `Homology.hh`, of the candidate
container of `bbh/BBHCandidatesContainer.hh`, and of the k-mer window
enumeration of `include/KmersHandler.hh`, together with theorems settling the
specification claims about them. -/

namespace PanDelos

/-- Sparse sorted k-mer multiset of one gene, as held by the source's
`KmersContainer`. Modelled from the spec: `KmersContainer` is not among the
given sources; the spec describes it as a sparse ordered sequence of
(key, multiplicity) pairs sorted by key ascending, with the cached largest
key (`getBiggerKey`) and cached total multiplicity
(`getMultiplicityNumber`). -/
structure KmersContainer where
  kmers : List (ℕ × ℕ)
  biggerKey : ℕ
  multiplicityNumber : ℕ
  deriving DecidableEq

/-- Well-formedness of a built container: keys strictly increasing, the
cached bigger key bounds every key, and the cached total multiplicity is the
sum of the multiplicities.  Construction guarantees these invariants. -/
def KmersContainer.WF (c : KmersContainer) : Prop :=
  c.kmers.Pairwise (fun p q => p.1 < q.1) ∧
  (∀ p ∈ c.kmers, p.1 ≤ c.biggerKey) ∧
  c.multiplicityNumber = (c.kmers.map Prod.snd).sum

instance (c : KmersContainer) : Decidable c.WF := by
  unfold KmersContainer.WF; infer_instance

/-- The streaming merge loop of `Homology::calculateSimilarity`
(`Homology.hh`): walks the two sorted (key, multiplicity) lists with two
cursors, accumulating `(num, den, currentShortestMultiplicity,
currentLongestMultiplicity)`, and stops as soon as the short cursor's key
exceeds the long container's cached largest key. -/
def mergeLoop (longestBiggerKey : ℕ) :
    List (ℕ × ℕ) → List (ℕ × ℕ) → ℕ × ℕ × ℕ × ℕ → ℕ × ℕ × ℕ × ℕ
  | [], _, acc => acc
  | _ :: _, [], acc => acc
  | (sk, sm) :: ss, (lk, lm) :: ls, (num, den, ms, ml) =>
    if longestBiggerKey < sk then (num, den, ms, ml)
    else if sk < lk then
      mergeLoop longestBiggerKey ss ((lk, lm) :: ls) (num, den, ms, ml)
    else if lk < sk then
      mergeLoop longestBiggerKey ((sk, sm) :: ss) ls (num, den, ms, ml)
    else
      mergeLoop longestBiggerKey ss ls
        (num + min sm lm, den + max sm lm, ms + sm, ml + lm)
  termination_by s l _ => s.length + l.length

/-- Container-level `Homology::calculateSimilarity(shortestContainer,
longestContainer)`.  The source returns `1.0*num/(den + ((shortTotal -
matchedShort) + (longTotal - matchedLong)))` with no zero-divisor guard; a
zero divisor makes the IEEE division `0.0/0` produce NaN, represented here
as `none`.  (For well-formed containers the subtractions cannot underflow,
which is proved below, so the truncated ℕ subtraction is faithful.) -/
def calculateSimilarityCont (shortc longc : KmersContainer) : Option ℚ :=
  let r := mergeLoop longc.biggerKey shortc.kmers longc.kmers (0, 0, 0, 0)
  let divisor :=
    r.2.1 + ((shortc.multiplicityNumber - r.2.2.1) +
             (longc.multiplicityNumber - r.2.2.2))
  if divisor = 0 then none else some ((r.1 : ℚ) / (divisor : ℚ))

/-- A gene as consumed by the similarity engine: its sequence length
(`getAlphabetLength`) and its built k-mer container.  Modelled from the
spec: `Gene.hh` is not among the given sources. -/
structure Gene where
  alphabetLength : ℕ
  container : KmersContainer
  deriving DecidableEq

/-- Number of distinct k-mers of a gene (`getKmersNum`).  Modelled from the
spec: `distinctCount` is the number of (key, multiplicity) pairs. -/
def Gene.getKmersNum (g : Gene) : ℕ := g.container.kmers.length

/-- Gene-level `Homology::calculateSimilarity(gene1, gene2)`
(`Homology.hh`): the length filter with integer halving, then the choice of
the container with fewer distinct k-mers as the short one (on a tie gene1's
container takes the long role), then the container-level computation. -/
def calculateSimilarityGene (gene1 gene2 : Gene) : Option ℚ :=
  if gene1.alphabetLength < gene2.alphabetLength / 2 ∨
      gene2.alphabetLength < gene1.alphabetLength / 2 then
    some 0
  else if gene1.getKmersNum < gene2.getKmersNum then
    calculateSimilarityCont gene1.container gene2.container
  else
    calculateSimilarityCont gene2.container gene1.container

/-- Multiplicity of key `k` in a (key, multiplicity) list (0 when absent). -/
def listMult (xs : List (ℕ × ℕ)) (k : ℕ) : ℕ :=
  ((xs.filter (fun p => p.1 = k)).map Prod.snd).sum

/-- Key support of a (key, multiplicity) list, as a finite set. -/
def listKeys (xs : List (ℕ × ℕ)) : Finset ℕ := (xs.map Prod.fst).toFinset

/-- Multiplicity of key `k` in container `c` (0 when the key is absent). -/
def multOf (c : KmersContainer) (k : ℕ) : ℕ := listMult c.kmers k

/-- Key support of a container. -/
def keysOf (c : KmersContainer) : Finset ℕ := listKeys c.kmers

/-- The specification's Generalized (weighted) Jaccard: sum of minima over
the union of the multiset supports divided by the sum of maxima, with `none`
standing for the undefined 0/0 ratio (where the source's unguarded division
yields NaN).  This definition follows the spec's words and is compared with
the source's streaming computation. -/
def generalizedJaccard (c1 c2 : KmersContainer) : Option ℚ :=
  let U := keysOf c1 ∪ keysOf c2
  let smin := ∑ k ∈ U, min (multOf c1 k) (multOf c2 k)
  let smax := ∑ k ∈ U, max (multOf c1 k) (multOf c2 k)
  if smax = 0 then none else some ((smin : ℚ) / (smax : ℚ))

/-- Accumulator-free reference form of the streaming merge: the intersection
sums (num, den, matchedShort, matchedLong) of two sorted sparse multisets,
with no early exit.  Used only to reason about `mergeLoop`. -/
def interSums : List (ℕ × ℕ) → List (ℕ × ℕ) → ℕ × ℕ × ℕ × ℕ
  | [], _ => (0, 0, 0, 0)
  | _ :: _, [] => (0, 0, 0, 0)
  | (sk, sm) :: ss, (lk, lm) :: ls =>
    if sk < lk then interSums ss ((lk, lm) :: ls)
    else if lk < sk then interSums ((sk, sm) :: ss) ls
    else
      let r := interSums ss ls
      (r.1 + min sm lm, r.2.1 + max sm lm, r.2.2.1 + sm, r.2.2.2 + lm)
  termination_by s l => s.length + l.length

lemma mem_listKeys {xs : List (ℕ × ℕ)} {k : ℕ} :
    k ∈ listKeys xs ↔ ∃ p ∈ xs, p.1 = k := by
  simp [listKeys, List.mem_toFinset, List.mem_map]

lemma listKeys_cons (k0 m0 : ℕ) (xs : List (ℕ × ℕ)) :
    listKeys ((k0, m0) :: xs) = insert k0 (listKeys xs) := by
  simp [listKeys]

lemma listMult_cons (k0 m0 k : ℕ) (xs : List (ℕ × ℕ)) :
    listMult ((k0, m0) :: xs) k = (if k0 = k then m0 else 0) + listMult xs k := by
  by_cases h : k0 = k <;> simp [listMult, List.filter_cons, h]

lemma listMult_eq_zero {xs : List (ℕ × ℕ)} {k : ℕ} (h : k ∉ listKeys xs) :
    listMult xs k = 0 := by
  have hnil : xs.filter (fun p => decide (p.1 = k)) = [] := by
    rw [List.filter_eq_nil_iff]
    intro p hp
    simp only [decide_eq_true_eq]
    exact fun hpk => h (mem_listKeys.mpr ⟨p, hp, hpk⟩)
  simp [listMult, hnil]

lemma keys_gt_of_pairwise {k0 m0 : ℕ} {xs : List (ℕ × ℕ)}
    (h : ((k0, m0) :: xs).Pairwise (fun p q => p.1 < q.1)) :
    ∀ k ∈ listKeys xs, k0 < k := by
  intro k hk
  obtain ⟨p, hp, rfl⟩ := mem_listKeys.mp hk
  exact (List.pairwise_cons.mp h).1 p hp

lemma head_not_mem_keys {k0 m0 : ℕ} {xs : List (ℕ × ℕ)}
    (h : ((k0, m0) :: xs).Pairwise (fun p q => p.1 < q.1)) :
    k0 ∉ listKeys xs := by
  intro hmem
  exact absurd (keys_gt_of_pairwise h k0 hmem) (lt_irrefl k0)

lemma interSums_disjoint (s l : List (ℕ × ℕ))
    (h : ∀ p ∈ s, ∀ q ∈ l, p.1 ≠ q.1) :
    interSums s l = (0, 0, 0, 0) := by
  induction s, l using interSums.induct with
  | case1 l => simp [interSums]
  | case2 p ps => simp [interSums]
  | case3 sk sm ss lk lm ls hlt ih =>
    rw [interSums, if_pos hlt]
    exact ih fun p hp q hq => h p (List.mem_cons_of_mem _ hp) q hq
  | case4 sk sm ss lk lm ls hnlt hlt ih =>
    rw [interSums, if_neg hnlt, if_pos hlt]
    exact ih fun p hp q hq => h p hp q (List.mem_cons_of_mem _ hq)
  | case5 sk sm ss lk lm ls hnlt hnlt2 ih =>
    exact absurd (show ((sk, sm) : ℕ × ℕ).1 = ((lk, lm) : ℕ × ℕ).1 by
        show sk = lk; omega)
      (h (sk, sm) (List.mem_cons_self _ _) (lk, lm) (List.mem_cons_self _ _))

/-- The early exit of the streaming merge is sound: when the short cursor's
key exceeds the bound on every long key, no intersection remains. -/
lemma interSums_eq_zero_of_bigger {bk sk sm : ℕ} {ss l : List (ℕ × ℕ)}
    (hs : ((sk, sm) :: ss).Pairwise (fun p q => p.1 < q.1))
    (hl : ∀ q ∈ l, q.1 ≤ bk) (hbk : bk < sk) :
    interSums ((sk, sm) :: ss) l = (0, 0, 0, 0) := by
  apply interSums_disjoint
  intro p hp q hq
  have hq2 := hl q hq
  rcases List.mem_cons.mp hp with rfl | hp2
  · show sk ≠ q.1; omega
  · have := (List.pairwise_cons.mp hs).1 p hp2
    omega

/-- The streaming merge with its early exit computes exactly the
intersection sums, offset by the accumulator. -/
lemma mergeLoop_eq_interSums (bk : ℕ) (s l : List (ℕ × ℕ)) :
    s.Pairwise (fun p q => p.1 < q.1) → (∀ q ∈ l, q.1 ≤ bk) →
    ∀ n d a b : ℕ,
      mergeLoop bk s l (n, d, a, b) =
        (n + (interSums s l).1, d + (interSums s l).2.1,
         a + (interSums s l).2.2.1, b + (interSums s l).2.2.2) := by
  induction s, l using interSums.induct with
  | case1 l =>
    intro _ _ n d a b
    simp [mergeLoop, interSums]
  | case2 p ps =>
    intro _ _ n d a b
    simp [mergeLoop, interSums]
  | case3 sk sm ss lk lm ls hlt ih =>
    intro hs hl n d a b
    by_cases hbk : bk < sk
    · rw [mergeLoop, if_pos hbk, interSums_eq_zero_of_bigger hs hl hbk]
      simp
    · rw [mergeLoop, if_neg hbk, if_pos hlt,
        ih (List.Pairwise.of_cons hs) hl n d a b,
        interSums, if_pos hlt]
  | case4 sk sm ss lk lm ls hnlt hlt ih =>
    intro hs hl n d a b
    by_cases hbk : bk < sk
    · rw [mergeLoop, if_pos hbk, interSums_eq_zero_of_bigger hs hl hbk]
      simp
    · rw [mergeLoop, if_neg hbk, if_neg hnlt, if_pos hlt,
        ih hs (fun q hq => hl q (List.mem_cons_of_mem _ hq)) n d a b,
        interSums, if_neg hnlt, if_pos hlt]
  | case5 sk sm ss lk lm ls hnlt hnlt2 ih =>
    intro hs hl n d a b
    by_cases hbk : bk < sk
    · rw [mergeLoop, if_pos hbk, interSums_eq_zero_of_bigger hs hl hbk]
      simp
    · rw [mergeLoop, if_neg hbk, if_neg hnlt, if_neg hnlt2,
        ih (List.Pairwise.of_cons hs) (fun q hq => hl q (List.mem_cons_of_mem _ hq))
          (n + min sm lm) (d + max sm lm) (a + sm) (b + lm),
        interSums, if_neg hnlt, if_neg hnlt2]
      rcases hr : interSums ss ls with ⟨r1, r2, r3, r4⟩
      simp only [Prod.mk.injEq]
      omega

/-- The intersection sums of two sorted sparse multisets are the sums of
min, max and the two multiplicities over the intersection of the key
supports. -/
lemma interSums_spec (s l : List (ℕ × ℕ)) :
    s.Pairwise (fun p q => p.1 < q.1) → l.Pairwise (fun p q => p.1 < q.1) →
    interSums s l =
      (∑ k ∈ listKeys s ∩ listKeys l, min (listMult s k) (listMult l k),
       ∑ k ∈ listKeys s ∩ listKeys l, max (listMult s k) (listMult l k),
       ∑ k ∈ listKeys s ∩ listKeys l, listMult s k,
       ∑ k ∈ listKeys s ∩ listKeys l, listMult l k) := by
  induction s, l using interSums.induct with
  | case1 l =>
    intro _ _
    simp [interSums, listKeys]
  | case2 p ps =>
    intro _ _
    simp [interSums, listKeys]
  | case3 sk sm ss lk lm ls hlt ih =>
    intro hs hl
    have hsk : sk ∉ listKeys ((lk, lm) :: ls) := by
      intro hmem
      obtain ⟨p, hp, hpk⟩ := mem_listKeys.mp hmem
      rcases List.mem_cons.mp hp with rfl | hp2
      · simp only at hpk; omega
      · have := (List.pairwise_cons.mp hl).1 p hp2
        omega
    have hK : listKeys ((sk, sm) :: ss) ∩ listKeys ((lk, lm) :: ls) =
        listKeys ss ∩ listKeys ((lk, lm) :: ls) := by
      rw [listKeys_cons]
      exact Finset.insert_inter_of_not_mem hsk
    have hm : ∀ k ∈ listKeys ss ∩ listKeys ((lk, lm) :: ls),
        listMult ((sk, sm) :: ss) k = listMult ss k := by
      intro k hk
      have hgt : sk < k :=
        keys_gt_of_pairwise hs k (Finset.mem_of_mem_inter_left hk)
      rw [listMult_cons, if_neg (by omega), zero_add]
    rw [interSums, if_pos hlt, ih (List.Pairwise.of_cons hs) hl, hK]
    refine congrArg₂ _ ?_ (congrArg₂ _ ?_ (congrArg₂ _ ?_ ?_)) <;>
      refine Finset.sum_congr rfl fun k hk => ?_ <;>
      first
      | rw [hm k hk]
      | rfl
  | case4 sk sm ss lk lm ls hnlt hlt ih =>
    intro hs hl
    have hlk : lk ∉ listKeys ((sk, sm) :: ss) := by
      intro hmem
      obtain ⟨p, hp, hpk⟩ := mem_listKeys.mp hmem
      rcases List.mem_cons.mp hp with rfl | hp2
      · simp only at hpk; omega
      · have := (List.pairwise_cons.mp hs).1 p hp2
        omega
    have hK : listKeys ((sk, sm) :: ss) ∩ listKeys ((lk, lm) :: ls) =
        listKeys ((sk, sm) :: ss) ∩ listKeys ls := by
      conv_lhs => rw [listKeys_cons lk lm ls]
      exact Finset.inter_insert_of_not_mem hlk
    have hm : ∀ k ∈ listKeys ((sk, sm) :: ss) ∩ listKeys ls,
        listMult ((lk, lm) :: ls) k = listMult ls k := by
      intro k hk
      have hgt : lk < k :=
        keys_gt_of_pairwise hl k (Finset.mem_of_mem_inter_right hk)
      rw [listMult_cons, if_neg (by omega), zero_add]
    rw [interSums, if_neg hnlt, if_pos hlt, ih hs (List.Pairwise.of_cons hl), hK]
    refine congrArg₂ _ ?_ (congrArg₂ _ ?_ (congrArg₂ _ ?_ ?_)) <;>
      refine Finset.sum_congr rfl fun k hk => ?_ <;>
      first
      | rw [hm k hk]
      | rfl
  | case5 sk sm ss lk lm ls hnlt hnlt2 ih =>
    intro hs hl
    have hek : sk = lk := by omega
    subst hek
    have hsk1 : sk ∉ listKeys ss := head_not_mem_keys hs
    have hsk2 : sk ∉ listKeys ls := head_not_mem_keys hl
    have hK : listKeys ((sk, sm) :: ss) ∩ listKeys ((sk, lm) :: ls) =
        insert sk (listKeys ss ∩ listKeys ls) := by
      rw [listKeys_cons, listKeys_cons]
      ext k
      simp only [Finset.mem_inter, Finset.mem_insert]
      tauto
    have hnotin : sk ∉ listKeys ss ∩ listKeys ls := by
      intro hmem
      exact hsk1 (Finset.mem_of_mem_inter_left hmem)
    have hms : listMult ((sk, sm) :: ss) sk = sm := by
      rw [listMult_cons, if_pos rfl, listMult_eq_zero hsk1, Nat.add_zero]
    have hml : listMult ((sk, lm) :: ls) sk = lm := by
      rw [listMult_cons, if_pos rfl, listMult_eq_zero hsk2, Nat.add_zero]
    
    have hcs : ∀ k ∈ listKeys ss ∩ listKeys ls,
        listMult ((sk, sm) :: ss) k = listMult ss k := by
      intro k hk
      have hgt : sk < k :=
        keys_gt_of_pairwise hs k (Finset.mem_of_mem_inter_left hk)
      rw [listMult_cons, if_neg (by omega), zero_add]
    have hcl : ∀ k ∈ listKeys ss ∩ listKeys ls,
        listMult ((sk, lm) :: ls) k = listMult ls k := by
      intro k hk
      have hgt : sk < k :=
        keys_gt_of_pairwise hl k (Finset.mem_of_mem_inter_right hk)
      rw [listMult_cons, if_neg (by omega), zero_add]
    rw [interSums, if_neg hnlt, if_neg hnlt2,
      ih (List.Pairwise.of_cons hs) (List.Pairwise.of_cons hl), hK]
    rw [Finset.sum_insert hnotin, Finset.sum_insert hnotin,
      Finset.sum_insert hnotin, Finset.sum_insert hnotin, hms, hml]
    have e1 : ∑ k ∈ listKeys ss ∩ listKeys ls,
        min (listMult ((sk, sm) :: ss) k) (listMult ((sk, lm) :: ls) k) =
        ∑ k ∈ listKeys ss ∩ listKeys ls, min (listMult ss k) (listMult ls k) :=
      Finset.sum_congr rfl fun k hk => by rw [hcs k hk, hcl k hk]
    have e2 : ∑ k ∈ listKeys ss ∩ listKeys ls,
        max (listMult ((sk, sm) :: ss) k) (listMult ((sk, lm) :: ls) k) =
        ∑ k ∈ listKeys ss ∩ listKeys ls, max (listMult ss k) (listMult ls k) :=
      Finset.sum_congr rfl fun k hk => by rw [hcs k hk, hcl k hk]
    have e3 : ∑ k ∈ listKeys ss ∩ listKeys ls, listMult ((sk, sm) :: ss) k =
        ∑ k ∈ listKeys ss ∩ listKeys ls, listMult ss k :=
      Finset.sum_congr rfl fun k hk => by rw [hcs k hk]
    have e4 : ∑ k ∈ listKeys ss ∩ listKeys ls, listMult ((sk, lm) :: ls) k =
        ∑ k ∈ listKeys ss ∩ listKeys ls, listMult ls k :=
      Finset.sum_congr rfl fun k hk => by rw [hcl k hk]
    rw [e1, e2, e3, e4]
    simp only [Prod.mk.injEq]
    omega

/-- Sum of per-key multiplicities over the key support is the sum of the
multiplicity column. -/
lemma sum_listMult (xs : List (ℕ × ℕ))
    (hx : xs.Pairwise (fun p q => p.1 < q.1)) :
    ∑ k ∈ listKeys xs, listMult xs k = (xs.map Prod.snd).sum := by
  induction xs with
  | nil => simp [listKeys, listMult]
  | cons p xs ih =>
    obtain ⟨k0, m0⟩ := p
    rw [listKeys_cons, Finset.sum_insert (head_not_mem_keys hx),
      listMult_cons, if_pos rfl, listMult_eq_zero (head_not_mem_keys hx)]
    have e : ∑ k ∈ listKeys xs, listMult ((k0, m0) :: xs) k =
        ∑ k ∈ listKeys xs, listMult xs k := by
      refine Finset.sum_congr rfl fun k hk => ?_
      have hgt : k0 < k := keys_gt_of_pairwise hx k hk
      rw [listMult_cons, if_neg (by omega), zero_add]
    rw [e, ih (List.Pairwise.of_cons hx)]
    simp

/-- Core bridge: for well-formed containers the source's streaming
similarity (early exit included) equals the spec's Generalized Jaccard over
the union of the key supports. -/
lemma similarityCont_eq_jaccard (c1 c2 : KmersContainer)
    (h1 : c1.WF) (h2 : c2.WF) :
    calculateSimilarityCont c1 c2 = generalizedJaccard c1 c2 := by
  obtain ⟨hs1, hb1, hm1⟩ := h1
  obtain ⟨hs2, hb2, hm2⟩ := h2
  have hmerge := mergeLoop_eq_interSums c2.biggerKey c1.kmers c2.kmers hs1 hb2 0 0 0 0
  rw [interSums_spec c1.kmers c2.kmers hs1 hs2] at hmerge
  simp only [zero_add] at hmerge
  have hT1 : ∑ k ∈ listKeys c1.kmers, listMult c1.kmers k = c1.multiplicityNumber :=
    (sum_listMult c1.kmers hs1).trans hm1.symm
  have hT2 : ∑ k ∈ listKeys c2.kmers, listMult c2.kmers k = c2.multiplicityNumber :=
    (sum_listMult c2.kmers hs2).trans hm2.symm
  have d1 := Finset.sum_inter_add_sum_diff (listKeys c1.kmers) (listKeys c2.kmers)
    (fun k => listMult c1.kmers k)
  have d2p := Finset.sum_inter_add_sum_diff (listKeys c2.kmers) (listKeys c1.kmers)
    (fun k => listMult c2.kmers k)
  rw [Finset.inter_comm] at d2p
  have hUmin : ∑ k ∈ listKeys c1.kmers ∪ listKeys c2.kmers,
      min (listMult c1.kmers k) (listMult c2.kmers k) =
      ∑ k ∈ listKeys c1.kmers ∩ listKeys c2.kmers,
        min (listMult c1.kmers k) (listMult c2.kmers k) := by
    refine (Finset.sum_subset Finset.inter_subset_union ?_).symm
    intro x _ hxI
    by_cases hx1 : x ∈ listKeys c1.kmers
    · have hx2 : x ∉ listKeys c2.kmers := fun hx2 => hxI (Finset.mem_inter.mpr ⟨hx1, hx2⟩)
      rw [listMult_eq_zero hx2, Nat.min_zero]
    · rw [listMult_eq_zero hx1, Nat.zero_min]
  have hUsplit : ∑ k ∈ listKeys c1.kmers ∪ listKeys c2.kmers,
      max (listMult c1.kmers k) (listMult c2.kmers k) =
      ∑ k ∈ listKeys c1.kmers, max (listMult c1.kmers k) (listMult c2.kmers k) +
      ∑ k ∈ listKeys c2.kmers \ listKeys c1.kmers,
        max (listMult c1.kmers k) (listMult c2.kmers k) := by
    rw [← Finset.union_sdiff_self_eq_union, Finset.sum_union Finset.disjoint_sdiff]
  have hmax1 : ∑ k ∈ listKeys c1.kmers, max (listMult c1.kmers k) (listMult c2.kmers k) =
      (∑ k ∈ listKeys c1.kmers ∩ listKeys c2.kmers,
        max (listMult c1.kmers k) (listMult c2.kmers k)) +
      ∑ k ∈ listKeys c1.kmers \ listKeys c2.kmers, listMult c1.kmers k := by
    rw [← Finset.sum_inter_add_sum_diff (listKeys c1.kmers) (listKeys c2.kmers)
      (fun k => max (listMult c1.kmers k) (listMult c2.kmers k))]
    congr 1
    refine Finset.sum_congr rfl fun k hk => ?_
    have hk2 : k ∉ listKeys c2.kmers := (Finset.mem_sdiff.mp hk).2
    rw [listMult_eq_zero hk2, Nat.max_zero]
  have hmax2 : ∑ k ∈ listKeys c2.kmers \ listKeys c1.kmers,
      max (listMult c1.kmers k) (listMult c2.kmers k) =
      ∑ k ∈ listKeys c2.kmers \ listKeys c1.kmers, listMult c2.kmers k := by
    refine Finset.sum_congr rfl fun k hk => ?_
    have hk1 : k ∉ listKeys c1.kmers := (Finset.mem_sdiff.mp hk).2
    rw [listMult_eq_zero hk1, Nat.zero_max]
  have hUmax : ∑ k ∈ listKeys c1.kmers ∪ listKeys c2.kmers,
      max (listMult c1.kmers k) (listMult c2.kmers k) =
      (∑ k ∈ listKeys c1.kmers ∩ listKeys c2.kmers,
        max (listMult c1.kmers k) (listMult c2.kmers k)) +
      ((c1.multiplicityNumber -
          ∑ k ∈ listKeys c1.kmers ∩ listKeys c2.kmers, listMult c1.kmers k) +
       (c2.multiplicityNumber -
          ∑ k ∈ listKeys c1.kmers ∩ listKeys c2.kmers, listMult c2.kmers k)) := by
    simp only at d1 d2p
    omega
  simp only [calculateSimilarityCont, generalizedJaccard, multOf, keysOf, hmerge]
  rw [hUmin, hUmax]

/-- The spec's Generalized Jaccard is symmetric in its two containers. -/
lemma generalizedJaccard_comm (c1 c2 : KmersContainer) :
    generalizedJaccard c1 c2 = generalizedJaccard c2 c1 := by
  simp only [generalizedJaccard]
  rw [Finset.union_comm]
  have e1 : ∑ k ∈ keysOf c2 ∪ keysOf c1, min (multOf c1 k) (multOf c2 k) =
      ∑ k ∈ keysOf c2 ∪ keysOf c1, min (multOf c2 k) (multOf c1 k) :=
    Finset.sum_congr rfl fun k _ => Nat.min_comm _ _
  have e2 : ∑ k ∈ keysOf c2 ∪ keysOf c1, max (multOf c1 k) (multOf c2 k) =
      ∑ k ∈ keysOf c2 ∪ keysOf c1, max (multOf c2 k) (multOf c1 k) :=
    Finset.sum_congr rfl fun k _ => Nat.max_comm _ _
  rw [e1, e2]

/-- C1: for genes with built (well-formed) k-mer containers that pass the
length filter, `calculateSimilarity` returns exactly the Generalized
(weighted) Jaccard of the two k-mer multisets, i.e. the sum of minima over
the union of the key supports divided by the sum of maxima (equal to
num/(den + unmatchedShort + unmatchedLong)); the early termination of the
streaming merge does not change the value. -/
theorem C1_streaming_similarity_is_generalized_jaccard (g1 g2 : Gene)
    (h1 : g1.container.WF) (h2 : g2.container.WF)
    (hfilter : ¬(g1.alphabetLength < g2.alphabetLength / 2 ∨
        g2.alphabetLength < g1.alphabetLength / 2)) :
    calculateSimilarityGene g1 g2 = generalizedJaccard g1.container g2.container := by
  simp only [calculateSimilarityGene]
  rw [if_neg hfilter]
  by_cases hk : g1.getKmersNum < g2.getKmersNum
  · rw [if_pos hk]
    exact similarityCont_eq_jaccard _ _ h1 h2
  · rw [if_neg hk, similarityCont_eq_jaccard _ _ h2 h1]
    exact generalizedJaccard_comm _ _

/-- Container of spec scenario S4 gene A (`ABCABC`, k=3): kmers ABC, BCA,
CAB with keys 0, 1, 2. -/
def contS4A : KmersContainer := ⟨[(0, 2), (1, 1), (2, 1)], 2, 4⟩

/-- Container of spec scenario S4 gene B (`ABCXYZ`, k=3): kmers ABC, BCX,
CXY, XYZ with keys 0, 3, 4, 5. -/
def contS4B : KmersContainer := ⟨[(0, 1), (3, 1), (4, 1), (5, 1)], 5, 4⟩

theorem C1_witness :
    calculateSimilarityGene ⟨6, contS4A⟩ ⟨6, contS4B⟩ = generalizedJaccard contS4A contS4B :=
  C1_streaming_similarity_is_generalized_jaccard ⟨6, contS4A⟩ ⟨6, contS4B⟩
    (by decide) (by decide) (by decide)

/-- C10: `calculateSimilarity` is symmetric in its two genes, also when the
two genes tie on the distinct-k-mer count and the tie-breaking branch swaps
the short/long roles. -/
theorem C10_similarity_symmetric (g1 g2 : Gene)
    (h1 : g1.container.WF) (h2 : g2.container.WF) :
    calculateSimilarityGene g1 g2 = calculateSimilarityGene g2 g1 := by
  simp only [calculateSimilarityGene]
  by_cases hf : g1.alphabetLength < g2.alphabetLength / 2 ∨
      g2.alphabetLength < g1.alphabetLength / 2
  · rw [if_pos hf, if_pos (Or.symm hf)]
  · rw [if_neg hf, if_neg (fun hc => hf (Or.symm hc))]
    rcases lt_trichotomy g1.getKmersNum g2.getKmersNum with h | h | h
    · rw [if_pos h, if_neg (by omega)]
    · rw [if_neg (by omega), if_neg (by omega),
        similarityCont_eq_jaccard _ _ h2 h1, similarityCont_eq_jaccard _ _ h1 h2]
      exact (generalizedJaccard_comm _ _).symm
    · rw [if_neg (by omega), if_pos h]

theorem C10_witness :
    calculateSimilarityGene ⟨5, ⟨[(0, 2), (2, 1)], 2, 3⟩⟩ ⟨5, ⟨[(1, 1), (2, 2)], 2, 3⟩⟩ =
      calculateSimilarityGene ⟨5, ⟨[(1, 1), (2, 2)], 2, 3⟩⟩ ⟨5, ⟨[(0, 2), (2, 1)], 2, 3⟩⟩ :=
  C10_similarity_symmetric _ _ (by decide) (by decide)

/-- C7 (failing input): two genes whose k-mer containers are both empty pass
the length filter and reach the streaming merge with divisor
`den + unmatchedShort + unmatchedLong = 0`; the source then evaluates
`1.0*0/0`, which is IEEE NaN (`none` here), not the score 0 the claim
requires. -/
theorem C7_zero_divisor_yields_nan :
    calculateSimilarityGene ⟨1, ⟨[], 0, 0⟩⟩ ⟨1, ⟨[], 0, 0⟩⟩ = none ∧
      (none : Option ℚ) ≠ some 0 := by
  constructor
  · simp [calculateSimilarityGene, calculateSimilarityCont, mergeLoop, Gene.getKmersNum]
  · simp

/-- C9: whenever one gene's length is below half of the other's (with the
source's integer halving), the similarity is 0 immediately, for arbitrary
container contents of both genes (the containers are never examined). -/
theorem C9_length_filter_short_circuits (g1 g2 : Gene)
    (h : g1.alphabetLength < g2.alphabetLength / 2 ∨
        g2.alphabetLength < g1.alphabetLength / 2) :
    calculateSimilarityGene g1 g2 = some 0 := by
  simp only [calculateSimilarityGene]
  rw [if_pos h]

theorem C9_witness :
    calculateSimilarityGene ⟨100, ⟨[(9, 9)], 0, 5⟩⟩ ⟨49, ⟨[(3, 1)], 7, 2⟩⟩ = some 0 :=
  C9_length_filter_short_circuits _ _ (by decide)

section BBHPipeline

variable {S : Type} [DecidableEq S]

/-- Candidate record of one row (the source's `BBHCandidate`): the best
score seen so far on the row and the set of column indices attaining it.
Modelled from the spec: `BBHCandidate.hh` is not among the given sources;
the spec's CandidateSet starts with best 0 and an empty column set. -/
structure BBHCandidate (S : Type) where
  bestScore : S
  candidateList : Finset ℕ
  deriving DecidableEq

/-- The candidate update (`BBHCandidate::addCandidate`, reached through
`BBHCandidatesContainer::addCandidate`).  Modelled from the spec: if
score > best reset the column set to the new column, if score == best and
best > 0 insert the column, otherwise ignore.  The score comparisons are
abstract (`ltS`, `eqS`) so that the same definition serves the exact
rational instantiation and the IEEE-style one. -/
def addCandidate (ltS eqS : S → S → Bool) (zeroS : S)
    (cd : BBHCandidate S) (newScore : S) (newIndex : ℕ) : BBHCandidate S :=
  if ltS cd.bestScore newScore then ⟨newScore, {newIndex}⟩
  else if eqS newScore cd.bestScore && ltS zeroS cd.bestScore then
    ⟨cd.bestScore, insert newIndex cd.candidateList⟩
  else cd

/-- Row-phase task of `Homology::calculateRow` for one row `r`: fold the
candidate update over all columns `0..C-1` in order (each score is also the
matrix entry `sim r c`). -/
def calculateRow (ltS eqS : S → S → Bool) (zeroS : S)
    (C : ℕ) (sim : ℕ → ℕ → S) (r : ℕ) : BBHCandidate S :=
  (List.range C).foldl
    (fun cd c => addCandidate ltS eqS zeroS cd (sim r c) c) ⟨zeroS, ∅⟩

/-- Row-phase task of `Homology::calculateRowSame` for one row `r`: only
the columns `r+1..C-1` are computed. -/
def calculateRowSame (ltS eqS : S → S → Bool) (zeroS : S)
    (C : ℕ) (sim : ℕ → ℕ → S) (r : ℕ) : BBHCandidate S :=
  (List.range' (r + 1) (C - (r + 1))).foldl
    (fun cd c => addCandidate ltS eqS zeroS cd (sim r c) c) ⟨zeroS, ∅⟩

/-- Score matrix of a same-genome comparison: the row tasks write only the
strict upper triangle; every other cell keeps the initial value.
Modelled from the spec for the initial value: `ScoresContainer.hh` is not
among the given sources; the spec says unwritten cells read as 0. -/
def matrixSame (zeroS : S) (sim : ℕ → ℕ → S) (r c : ℕ) : S :=
  if r < c then sim r c else zeroS

/-- Key set of the map built by `BBHCandidatesContainer::getPossibleMatch`:
every column appearing in some row's candidate list. -/
def matchCols (cands : ℕ → BBHCandidate S) (R : ℕ) : Finset ℕ :=
  (Finset.range R).biUnion (fun r => (cands r).candidateList)

/-- Column scan of the column-phase task: fold over the scanned rows with
`bestScore` starting at -1, tracking the set of rows attaining it
(reset on strictly greater, insert on equal). -/
def colScan (ltS eqS : S → S → Bool) (negOneS : S)
    (rows : List ℕ) (score : ℕ → S) : S × Finset ℕ :=
  rows.foldl
    (fun st r =>
      if ltS st.1 (score r) then (score r, {r})
      else if eqS (score r) st.1 then (st.1, insert r st.2) else st)
    (negOneS, ∅)

/-- Edges emitted by `Homology::checkForBBH` (different genomes): for every
candidate column, scan all `R` rows of the column, and emit `(r, c,
bestScore)` for every best row `r` whose own row best equals the column
best.  (The `bestScore > 0` guard is commented out in the source.) -/
def checkForBBH (ltS eqS : S → S → Bool) (negOneS : S)
    (R : ℕ) (cands : ℕ → BBHCandidate S) (mat : ℕ → ℕ → S) :
    Finset (ℕ × ℕ × S) :=
  (matchCols cands R).biUnion (fun c =>
    let scan := colScan ltS eqS negOneS (List.range R) (fun r => mat r c)
    (scan.2.filter (fun r => eqS scan.1 (cands r).bestScore)).image
      (fun r => (r, c, scan.1)))

/-- Edges emitted by `Homology::checkForBBHSame` (same genome): identical
to `checkForBBH` except that column `c` scans only the rows `0..c-1`. -/
def checkForBBHSame (ltS eqS : S → S → Bool) (negOneS : S)
    (R : ℕ) (cands : ℕ → BBHCandidate S) (mat : ℕ → ℕ → S) :
    Finset (ℕ × ℕ × S) :=
  (matchCols cands R).biUnion (fun c =>
    let scan := colScan ltS eqS negOneS (List.range c) (fun r => mat r c)
    (scan.2.filter (fun r => eqS scan.1 (cands r).bestScore)).image
      (fun r => (r, c, scan.1)))

end BBHPipeline

/-- Exact rational strict order as a boolean, the comparison done by the
source on non-NaN doubles. -/
def qlt (x y : ℚ) : Bool := decide (x < y)

/-- Exact rational equality as a boolean, the comparison done by the source
on non-NaN doubles. -/
def qeq (x y : ℚ) : Bool := decide (x = y)

/-- Propositional form of the rational candidate update. -/
lemma addCandidate_q_def (cd : BBHCandidate ℚ) (s : ℚ) (i : ℕ) :
    addCandidate qlt qeq 0 cd s i =
      if cd.bestScore < s then ⟨s, {i}⟩
      else if s = cd.bestScore ∧ 0 < cd.bestScore then
        ⟨cd.bestScore, insert i cd.candidateList⟩
      else cd := by
  simp [addCandidate, qlt, qeq]

/-- Invariant of the row-phase candidate fold with rational scores,
relative to the list `P` of columns processed so far: the best is
nonnegative, the candidate list holds processed columns scoring exactly the
best, the best dominates every processed column, when positive the list is
exactly the processed argmax set and the best is attained, and a non-empty
list forces a positive best. -/
def RowInv (f : ℕ → ℚ) (P : List ℕ) (cd : BBHCandidate ℚ) : Prop :=
  0 ≤ cd.bestScore ∧
  (∀ c ∈ cd.candidateList, c ∈ P ∧ f c = cd.bestScore) ∧
  (∀ c ∈ P, f c ≤ cd.bestScore) ∧
  (0 < cd.bestScore → ∀ c ∈ P, f c = cd.bestScore → c ∈ cd.candidateList) ∧
  (cd.candidateList.Nonempty → 0 < cd.bestScore) ∧
  (0 < cd.bestScore → ∃ c ∈ P, f c = cd.bestScore)

lemma rowInv_step (f : ℕ → ℚ) (P : List ℕ) (cd : BBHCandidate ℚ) (c : ℕ)
    (h : RowInv f P cd) :
    RowInv f (P ++ [c]) (addCandidate qlt qeq 0 cd (f c) c) := by
  obtain ⟨h0, hmem, hub, harg, hne, hex⟩ := h
  rw [addCandidate_q_def]
  by_cases hlt : cd.bestScore < f c
  · rw [if_pos hlt]
    refine ⟨le_of_lt (lt_of_le_of_lt h0 hlt), ?_, ?_, ?_, ?_, ?_⟩
    · intro x hx
      rw [Finset.mem_singleton] at hx
      subst hx
      exact ⟨List.mem_append_right _ (List.mem_singleton_self _), rfl⟩
    · intro x hx
      rcases List.mem_append.mp hx with hxP | hxc
      · exact le_of_lt (lt_of_le_of_lt (hub x hxP) hlt)
      · rw [List.mem_singleton] at hxc
        subst hxc
        exact le_refl _
    · intro _ x hx hfx
      rcases List.mem_append.mp hx with hxP | hxc
      · exfalso
        have := hub x hxP
        rw [hfx] at this
        exact absurd hlt (not_lt.mpr this)
      · rw [List.mem_singleton] at hxc
        subst hxc
        exact Finset.mem_singleton_self _
    · intro _
      exact lt_of_le_of_lt h0 hlt
    · intro _
      exact ⟨c, List.mem_append_right _ (List.mem_singleton_self _), rfl⟩
  · rw [if_neg hlt]
    by_cases heq : f c = cd.bestScore ∧ 0 < cd.bestScore
    · rw [if_pos heq]
      refine ⟨h0, ?_, ?_, ?_, ?_, ?_⟩
      · intro x hx
        rcases Finset.mem_insert.mp hx with rfl | hx2
        · exact ⟨List.mem_append_right _ (List.mem_singleton_self _), heq.1⟩
        · obtain ⟨hx3, hx4⟩ := hmem x hx2
          exact ⟨List.mem_append_left _ hx3, hx4⟩
      · intro x hx
        rcases List.mem_append.mp hx with hxP | hxc
        · exact hub x hxP
        · rw [List.mem_singleton] at hxc
          subst hxc
          exact le_of_eq heq.1
      · intro hpos x hx hfx
        rcases List.mem_append.mp hx with hxP | hxc
        · exact Finset.mem_insert_of_mem (harg hpos x hxP hfx)
        · rw [List.mem_singleton] at hxc
          subst hxc
          exact Finset.mem_insert_self _ _
      · intro _
        exact heq.2
      · intro _
        exact ⟨c, List.mem_append_right _ (List.mem_singleton_self _), heq.1⟩
    · rw [if_neg heq]
      have hle : f c ≤ cd.bestScore := not_lt.mp hlt
      refine ⟨h0, ?_, ?_, ?_, hne, ?_⟩
      · intro x hx
        obtain ⟨hx2, hx3⟩ := hmem x hx
        exact ⟨List.mem_append_left _ hx2, hx3⟩
      · intro x hx
        rcases List.mem_append.mp hx with hxP | hxc
        · exact hub x hxP
        · rw [List.mem_singleton] at hxc
          subst hxc
          exact hle
      · intro hpos x hx hfx
        rcases List.mem_append.mp hx with hxP | hxc
        · exact harg hpos x hxP hfx
        · rw [List.mem_singleton] at hxc
          subst hxc
          exact absurd ⟨hfx, hpos⟩ heq
      · intro hpos
        obtain ⟨x, hx1, hx2⟩ := hex hpos
        exact ⟨x, List.mem_append_left _ hx1, hx2⟩

lemma rowInv_fold (f : ℕ → ℚ) (L : List ℕ) :
    ∀ (P : List ℕ) (cd : BBHCandidate ℚ), RowInv f P cd →
      RowInv f (P ++ L)
        (L.foldl (fun cd c => addCandidate qlt qeq 0 cd (f c) c) cd) := by
  induction L with
  | nil =>
    intro P cd h
    simpa using h
  | cons c L ih =>
    intro P cd h
    have h3 := ih (P ++ [c]) _ (rowInv_step f P cd c h)
    simpa [List.append_assoc] using h3

lemma rowInv_init (f : ℕ → ℚ) : RowInv f [] (⟨0, ∅⟩ : BBHCandidate ℚ) := by
  refine ⟨le_refl 0, ?_, ?_, ?_, ?_, ?_⟩ <;> simp

lemma calculateRow_inv (C : ℕ) (sim : ℕ → ℕ → ℚ) (r : ℕ) :
    RowInv (sim r) (List.range C) (calculateRow qlt qeq 0 C sim r) := by
  have h := rowInv_fold (sim r) (List.range C) [] ⟨0, ∅⟩ (rowInv_init _)
  simpa [calculateRow] using h

lemma calculateRowSame_inv (C : ℕ) (sim : ℕ → ℕ → ℚ) (r : ℕ) :
    RowInv (sim r) (List.range' (r + 1) (C - (r + 1)))
      (calculateRowSame qlt qeq 0 C sim r) := by
  have h := rowInv_fold (sim r) (List.range' (r + 1) (C - (r + 1))) [] ⟨0, ∅⟩
    (rowInv_init _)
  simpa [calculateRowSame] using h

/-- Invariant of the column-phase scan with rational scores, relative to
the list `P` of rows scanned so far: the running best dominates every
scanned row, the row set is exactly the scanned argmax set, the best is at
least the initial -1 and is either still -1 or attained. -/
def ColInv (m : ℕ → ℚ) (P : List ℕ) (st : ℚ × Finset ℕ) : Prop :=
  (∀ r ∈ P, m r ≤ st.1) ∧
  (∀ r, r ∈ st.2 ↔ r ∈ P ∧ m r = st.1) ∧
  (-1 : ℚ) ≤ st.1 ∧
  (st.1 = -1 ∨ ∃ r ∈ P, m r = st.1)

lemma colInv_step (m : ℕ → ℚ) (P : List ℕ) (st : ℚ × Finset ℕ) (r : ℕ)
    (h : ColInv m P st) :
    ColInv m (P ++ [r])
      (if qlt st.1 (m r) then (m r, {r})
       else if qeq (m r) st.1 then (st.1, insert r st.2) else st) := by
  obtain ⟨hub, hset, hinit, hatt⟩ := h
  by_cases hlt : st.1 < m r
  · rw [if_pos (by simp [qlt, hlt])]
    refine ⟨?_, ?_, le_of_lt (lt_of_le_of_lt hinit hlt), ?_⟩
    · intro x hx
      rcases List.mem_append.mp hx with hxP | hxr
      · exact le_of_lt (lt_of_le_of_lt (hub x hxP) hlt)
      · rw [List.mem_singleton] at hxr
        subst hxr
        exact le_refl _
    · intro x
      constructor
      · intro hx
        rw [Finset.mem_singleton] at hx
        subst hx
        exact ⟨List.mem_append_right _ (List.mem_singleton_self _), rfl⟩
      · rintro ⟨hx1, hx2⟩
        rcases List.mem_append.mp hx1 with hxP | hxr
        · exfalso
          have := hub x hxP
          rw [hx2] at this
          exact absurd hlt (not_lt.mpr this)
        · rw [List.mem_singleton] at hxr
          subst hxr
          exact Finset.mem_singleton_self _
    · exact Or.inr ⟨r, List.mem_append_right _ (List.mem_singleton_self _), rfl⟩
  · rw [if_neg (by simp [qlt, hlt])]
    by_cases heq : m r = st.1
    · rw [if_pos (by simp [qeq, heq])]
      refine ⟨?_, ?_, hinit, ?_⟩
      · intro x hx
        rcases List.mem_append.mp hx with hxP | hxr
        · exact hub x hxP
        · rw [List.mem_singleton] at hxr
          subst hxr
          exact le_of_eq heq
      · intro x
        constructor
        · intro hx
          rcases Finset.mem_insert.mp hx with rfl | hx2
          · exact ⟨List.mem_append_right _ (List.mem_singleton_self _), heq⟩
          · obtain ⟨hx3, hx4⟩ := (hset x).mp hx2
            exact ⟨List.mem_append_left _ hx3, hx4⟩
        · rintro ⟨hx1, hx2⟩
          rcases List.mem_append.mp hx1 with hxP | hxr
          · exact Finset.mem_insert_of_mem ((hset x).mpr ⟨hxP, hx2⟩)
          · rw [List.mem_singleton] at hxr
            subst hxr
            exact Finset.mem_insert_self _ _
      · exact Or.inr ⟨r, List.mem_append_right _ (List.mem_singleton_self _), heq⟩
    · rw [if_neg (by simp [qeq, heq])]
      have hle : m r < st.1 := lt_of_le_of_ne (not_lt.mp hlt) heq
      refine ⟨?_, ?_, hinit, ?_⟩
      · intro x hx
        rcases List.mem_append.mp hx with hxP | hxr
        · exact hub x hxP
        · rw [List.mem_singleton] at hxr
          subst hxr
          exact le_of_lt hle
      · intro x
        constructor
        · intro hx
          obtain ⟨hx3, hx4⟩ := (hset x).mp hx
          exact ⟨List.mem_append_left _ hx3, hx4⟩
        · rintro ⟨hx1, hx2⟩
          rcases List.mem_append.mp hx1 with hxP | hxr
          · exact (hset x).mpr ⟨hxP, hx2⟩
          · rw [List.mem_singleton] at hxr
            subst hxr
            exact absurd hx2 (ne_of_lt hle)
      · rcases hatt with h1 | ⟨x, hx1, hx2⟩
        · exact Or.inl h1
        · exact Or.inr ⟨x, List.mem_append_left _ hx1, hx2⟩

lemma colInv_fold (m : ℕ → ℚ) (rows : List ℕ) :
    ∀ (P : List ℕ) (st : ℚ × Finset ℕ), ColInv m P st →
      ColInv m (P ++ rows)
        (rows.foldl
          (fun st r =>
            if qlt st.1 (m r) then (m r, {r})
            else if qeq (m r) st.1 then (st.1, insert r st.2) else st) st) := by
  induction rows with
  | nil =>
    intro P st h
    simpa using h
  | cons r rows ih =>
    intro P st h
    have h3 := ih (P ++ [r]) _ (colInv_step m P st r h)
    simpa [List.append_assoc] using h3

lemma colScan_inv (rows : List ℕ) (m : ℕ → ℚ) :
    ColInv m rows (colScan qlt qeq (-1) rows m) := by
  have h := colInv_fold m rows [] ((-1 : ℚ), ∅) (by refine ⟨?_, ?_, le_refl _, Or.inl rfl⟩ <;> simp)
  simpa [colScan] using h

lemma mem_checkForBBH {R : ℕ} {cands : ℕ → BBHCandidate ℚ} {mat : ℕ → ℕ → ℚ}
    {r c : ℕ} {s : ℚ} :
    (r, c, s) ∈ checkForBBH qlt qeq (-1) R cands mat ↔
      c ∈ matchCols cands R ∧
      r ∈ (colScan qlt qeq (-1) (List.range R) (fun x => mat x c)).2 ∧
      (colScan qlt qeq (-1) (List.range R) (fun x => mat x c)).1 =
        (cands r).bestScore ∧
      s = (colScan qlt qeq (-1) (List.range R) (fun x => mat x c)).1 := by
  simp only [checkForBBH, Finset.mem_biUnion, Finset.mem_image, Finset.mem_filter]
  constructor
  · rintro ⟨c2, hc2, r2, ⟨hr2, hq⟩, hE⟩
    obtain ⟨e1, e2, e3⟩ : r2 = r ∧ c2 = c ∧
        (colScan qlt qeq (-1) (List.range R) (fun x => mat x c2)).1 = s := by
      simpa using hE
    subst e1
    subst e2
    exact ⟨hc2, hr2, by simpa [qeq] using hq, e3.symm⟩
  · rintro ⟨h1, h2, h3, h4⟩
    exact ⟨c, h1, r, ⟨h2, by simp [qeq, h3]⟩, by rw [h4]⟩

lemma mem_checkForBBHSame {R : ℕ} {cands : ℕ → BBHCandidate ℚ} {mat : ℕ → ℕ → ℚ}
    {r c : ℕ} {s : ℚ} :
    (r, c, s) ∈ checkForBBHSame qlt qeq (-1) R cands mat ↔
      c ∈ matchCols cands R ∧
      r ∈ (colScan qlt qeq (-1) (List.range c) (fun x => mat x c)).2 ∧
      (colScan qlt qeq (-1) (List.range c) (fun x => mat x c)).1 =
        (cands r).bestScore ∧
      s = (colScan qlt qeq (-1) (List.range c) (fun x => mat x c)).1 := by
  simp only [checkForBBHSame, Finset.mem_biUnion, Finset.mem_image, Finset.mem_filter]
  constructor
  · rintro ⟨c2, hc2, r2, ⟨hr2, hq⟩, hE⟩
    obtain ⟨e1, e2, e3⟩ : r2 = r ∧ c2 = c ∧
        (colScan qlt qeq (-1) (List.range c2) (fun x => mat x c2)).1 = s := by
      simpa using hE
    subst e1
    subst e2
    exact ⟨hc2, hr2, by simpa [qeq] using hq, e3.symm⟩
  · rintro ⟨h1, h2, h3, h4⟩
    exact ⟨c, h1, r, ⟨h2, by simp [qeq, h3]⟩, by rw [h4]⟩

/-- C2: every edge (r, c, s) emitted by the column phase has s equal to the
matrix cell (r, c), to the emitting row's cached best, and to the maximum
matrix score in column c over the scanned rows: all rows for a
different-genome pair, the rows below c for a same-genome pair. -/
theorem C2_emitted_edges_are_mutually_best :
    (∀ (R C : ℕ) (sim : ℕ → ℕ → ℚ) (r c : ℕ) (s : ℚ),
      (r, c, s) ∈ checkForBBH qlt qeq (-1) R (calculateRow qlt qeq 0 C sim) sim →
        s = sim r c ∧
        s = (calculateRow qlt qeq 0 C sim r).bestScore ∧
        (∀ x < R, sim x c ≤ s) ∧ (∃ x < R, sim x c = s)) ∧
    (∀ (C : ℕ) (sim : ℕ → ℕ → ℚ) (r c : ℕ) (s : ℚ),
      (r, c, s) ∈ checkForBBHSame qlt qeq (-1) C (calculateRowSame qlt qeq 0 C sim)
          (matrixSame 0 sim) →
        s = matrixSame 0 sim r c ∧
        s = (calculateRowSame qlt qeq 0 C sim r).bestScore ∧
        (∀ x < c, matrixSame 0 sim x c ≤ s) ∧
        (∃ x < c, matrixSame 0 sim x c = s)) := by
  constructor
  · intro R C sim r c s hmem
    rw [mem_checkForBBH] at hmem
    obtain ⟨hc, hr, hbest, hs⟩ := hmem
    obtain ⟨hub, hset, _, _⟩ := colScan_inv (List.range R) (fun x => sim x c)
    obtain ⟨hrP, hrv⟩ := (hset r).mp hr
    refine ⟨by rw [hs, ← hrv], by rw [hs, hbest], ?_, ?_⟩
    · intro x hx
      rw [hs]
      exact hub x (List.mem_range.mpr hx)
    · exact ⟨r, List.mem_range.mp hrP, by rw [hs, ← hrv]⟩
  · intro C sim r c s hmem
    rw [mem_checkForBBHSame] at hmem
    obtain ⟨hc, hr, hbest, hs⟩ := hmem
    obtain ⟨hub, hset, _, _⟩ := colScan_inv (List.range c) (fun x => matrixSame 0 sim x c)
    obtain ⟨hrP, hrv⟩ := (hset r).mp hr
    refine ⟨by rw [hs, ← hrv], by rw [hs, hbest], ?_, ?_⟩
    · intro x hx
      rw [hs]
      exact hub x (List.mem_range.mpr hx)
    · exact ⟨r, List.mem_range.mp hrP, by rw [hs, ← hrv]⟩

/-- Concrete 1-by-1 score function used by witnesses. -/
def exSimOne : ℕ → ℕ → ℚ := fun _ _ => 1

theorem C2_witness :
    (1 : ℚ) = exSimOne 0 0 ∧
    (1 : ℚ) = (calculateRow qlt qeq 0 1 exSimOne 0).bestScore ∧
    (∀ x < 1, exSimOne x 0 ≤ (1 : ℚ)) ∧ (∃ x < 1, exSimOne x 0 = (1 : ℚ)) :=
  C2_emitted_edges_are_mutually_best.1 1 1 exSimOne 0 0 1 (by decide)

/-- C3: no emitted edge carries score 0, for different-genome and
same-genome comparisons alike: a candidate column always has a supporting
row with a positive score inside the scanned range, so the column best (and
hence every emitted score) is positive. -/
theorem C3_no_zero_score_edge_emitted :
    (∀ (R C : ℕ) (sim : ℕ → ℕ → ℚ) (r c : ℕ) (s : ℚ),
      (r, c, s) ∈ checkForBBH qlt qeq (-1) R (calculateRow qlt qeq 0 C sim) sim →
        s ≠ 0) ∧
    (∀ (C : ℕ) (sim : ℕ → ℕ → ℚ) (r c : ℕ) (s : ℚ),
      (r, c, s) ∈ checkForBBHSame qlt qeq (-1) C (calculateRowSame qlt qeq 0 C sim)
          (matrixSame 0 sim) → s ≠ 0) := by
  constructor
  · intro R C sim r c s hmem
    rw [mem_checkForBBH] at hmem
    obtain ⟨hc, hr, hbest, hs⟩ := hmem
    obtain ⟨r0, hr0R, hr0l⟩ := Finset.mem_biUnion.mp hc
    obtain ⟨_, hmemr0, _, _, hner0, _⟩ := calculateRow_inv C sim r0
    have hval : sim r0 c = (calculateRow qlt qeq 0 C sim r0).bestScore :=
      (hmemr0 c hr0l).2
    have hpos : 0 < sim r0 c := by
      rw [hval]
      exact hner0 ⟨c, hr0l⟩
    obtain ⟨hub, _, _, _⟩ := colScan_inv (List.range R) (fun x => sim x c)
    have hle : sim r0 c ≤ (colScan qlt qeq (-1) (List.range R) (fun x => sim x c)).1 :=
      hub r0 (List.mem_range.mpr (Finset.mem_range.mp hr0R))
    rw [hs]
    exact ne_of_gt (lt_of_lt_of_le hpos hle)
  · intro C sim r c s hmem
    rw [mem_checkForBBHSame] at hmem
    obtain ⟨hc, hr, hbest, hs⟩ := hmem
    obtain ⟨r0, hr0R, hr0l⟩ := Finset.mem_biUnion.mp hc
    obtain ⟨_, hmemr0, _, _, hner0, _⟩ := calculateRowSame_inv C sim r0
    obtain ⟨hcmem, hval⟩ := hmemr0 c hr0l
    have hrc : r0 < c := by
      have := (List.mem_range'_1.mp hcmem).1
      omega
    have hpos : 0 < sim r0 c := by
      rw [hval]
      exact hner0 ⟨c, hr0l⟩
    obtain ⟨hub, _, _, _⟩ := colScan_inv (List.range c) (fun x => matrixSame 0 sim x c)
    have hle : matrixSame 0 sim r0 c ≤
        (colScan qlt qeq (-1) (List.range c) (fun x => matrixSame 0 sim x c)).1 :=
      hub r0 (List.mem_range.mpr hrc)
    rw [matrixSame, if_pos hrc] at hle
    rw [hs]
    exact ne_of_gt (lt_of_lt_of_le hpos hle)

/-- Concrete same-genome score function used by witnesses: only the pair
(0, 1) scores 1. -/
def exSimSame : ℕ → ℕ → ℚ := fun r c => if r = 0 ∧ c = 1 then 1 else 0

theorem C3_witness :
    (0, 1, (1 : ℚ)) ∈ checkForBBHSame qlt qeq (-1) 2
        (calculateRowSame qlt qeq 0 2 exSimSame) (matrixSame 0 exSimSame) ∧
      (1 : ℚ) ≠ 0 :=
  ⟨by decide, C3_no_zero_score_edge_emitted.2 2 exSimSame 0 1 1 (by decide)⟩

/-- C5: after the row phase, a row whose scores are not all zero has its
cached best equal to the maximum score over the compared columns, and its
candidate list is exactly the set of columns attaining that maximum. -/
theorem C5_row_candidates_are_argmax (C : ℕ) (sim : ℕ → ℕ → ℚ) (r : ℕ)
    (hnn : ∀ c, c < C → 0 ≤ sim r c) (hnz : ∃ c, c < C ∧ sim r c ≠ 0) :
    (∀ c < C, sim r c ≤ (calculateRow qlt qeq 0 C sim r).bestScore) ∧
    (∃ c < C, sim r c = (calculateRow qlt qeq 0 C sim r).bestScore) ∧
    (calculateRow qlt qeq 0 C sim r).candidateList =
      (Finset.range C).filter
        (fun c => sim r c = (calculateRow qlt qeq 0 C sim r).bestScore) := by
  obtain ⟨h0, hmem, hub, harg, hne, hex⟩ := calculateRow_inv C sim r
  obtain ⟨c0, hc0, hc0nz⟩ := hnz
  have hpos : 0 < (calculateRow qlt qeq 0 C sim r).bestScore :=
    lt_of_lt_of_le (lt_of_le_of_ne (hnn c0 hc0) (Ne.symm hc0nz))
      (hub c0 (List.mem_range.mpr hc0))
  refine ⟨fun c hc => hub c (List.mem_range.mpr hc), ?_, ?_⟩
  · obtain ⟨c1, hc1, hv⟩ := hex hpos
    exact ⟨c1, List.mem_range.mp hc1, hv⟩
  · ext c
    simp only [Finset.mem_filter, Finset.mem_range]
    constructor
    · intro hcl
      obtain ⟨hc2, hc3⟩ := hmem c hcl
      exact ⟨List.mem_range.mp hc2, hc3⟩
    · rintro ⟨hc2, hc3⟩
      exact harg hpos c (List.mem_range.mpr hc2) hc3

/-- Concrete one-row score function used by witnesses: column 1 scores 1,
column 0 scores 0. -/
def exSimRow : ℕ → ℕ → ℚ := fun _ c => if c = 1 then 1 else 0

theorem C5_witness :
    (∀ c < 2, exSimRow 0 c ≤ (calculateRow qlt qeq 0 2 exSimRow 0).bestScore) ∧
    (∃ c < 2, exSimRow 0 c = (calculateRow qlt qeq 0 2 exSimRow 0).bestScore) ∧
    (calculateRow qlt qeq 0 2 exSimRow 0).candidateList =
      (Finset.range 2).filter
        (fun c => exSimRow 0 c = (calculateRow qlt qeq 0 2 exSimRow 0).bestScore) :=
  C5_row_candidates_are_argmax 2 exSimRow 0 (by decide) ⟨1, by decide⟩

/-- Lines written by one same-genome column task (column `c`): one
`(row, col)` pair per best row whose row best matches the column best, in
ascending row order (the real iteration order over the hash set is
unspecified; a canonical order is fixed here to talk about the written
lines). -/
def emitBlockSame (C : ℕ) (sim : ℕ → ℕ → ℚ) (c : ℕ) : List (ℕ × ℕ) :=
  (((colScan qlt qeq (-1) (List.range c) (fun x => matrixSame 0 sim x c)).2.filter
      (fun r =>
        qeq (colScan qlt qeq (-1) (List.range c) (fun x => matrixSame 0 sim x c)).1
          ((calculateRowSame qlt qeq 0 C sim r).bestScore))).sort (· ≤ ·)).map
    (fun r => (r, c))

/-- All lines written by the same-genome column phase, one block per
candidate column. -/
def emittedListSame (C : ℕ) (sim : ℕ → ℕ → ℚ) : List (ℕ × ℕ) :=
  ((matchCols (calculateRowSame qlt qeq 0 C sim) C).sort (· ≤ ·)).flatMap
    (emitBlockSame C sim)

lemma nodup_bind_blocks (cs : List ℕ) (B : ℕ → List (ℕ × ℕ))
    (hcs : cs.Nodup) (hB : ∀ c, (B c).Nodup)
    (hsnd : ∀ c, ∀ p ∈ B c, p.2 = c) :
    (cs.flatMap B).Nodup := by
  induction cs with
  | nil => simp
  | cons c cs ih =>
    rw [List.flatMap_cons, List.nodup_append]
    refine ⟨hB c, ih (List.nodup_cons.mp hcs).2, ?_⟩
    intro p hp1 hp2
    obtain ⟨c2, hc2, hpc2⟩ := List.mem_flatMap.mp hp2
    have e1 := hsnd c p hp1
    have e2 := hsnd c2 p hpc2
    have e3 : c = c2 := by rw [← e1, e2]
    subst e3
    exact (List.nodup_cons.mp hcs).1 hc2

lemma emitBlockSame_snd (C : ℕ) (sim : ℕ → ℕ → ℚ) (c : ℕ) :
    ∀ p ∈ emitBlockSame C sim c, p.2 = c := by
  intro p hp
  obtain ⟨r, _, he⟩ := List.mem_map.mp hp
  rw [← he]

lemma emitBlockSame_nodup (C : ℕ) (sim : ℕ → ℕ → ℚ) (c : ℕ) :
    (emitBlockSame C sim c).Nodup := by
  refine List.Nodup.map ?_ (Finset.sort_nodup _ _)
  intro a b e
  exact (Prod.mk.injEq a c b c).mp e |>.1

lemma emitBlockSame_fst_lt (C : ℕ) (sim : ℕ → ℕ → ℚ) (c : ℕ) :
    ∀ p ∈ emitBlockSame C sim c, p.1 < p.2 := by
  intro p hp
  obtain ⟨r, hr, he⟩ := List.mem_map.mp hp
  have hr2 : r ∈ (colScan qlt qeq (-1) (List.range c)
      (fun x => matrixSame 0 sim x c)).2 :=
    (Finset.mem_filter.mp ((Finset.mem_sort _).mp hr)).1
  obtain ⟨_, hset, _, _⟩ := colScan_inv (List.range c) (fun x => matrixSame 0 sim x c)
  have hrc : r < c := List.mem_range.mp ((hset r).mp hr2).1
  rw [← he]
  exact hrc

/-- C6: in a same-genome comparison no emitted line has its row index equal
to its column index, every line has row strictly below column, and no two
emitted lines repeat an unordered pair (each unordered pair of genes is
emitted at most once). -/
theorem C6_same_genome_no_diagonal_no_repeats (C : ℕ) (sim : ℕ → ℕ → ℚ) :
    (∀ p ∈ emittedListSame C sim, p.1 ≠ p.2) ∧
    (∀ p ∈ emittedListSame C sim, p.1 < p.2) ∧
    (emittedListSame C sim).Pairwise (fun p q => p ≠ q ∧ p ≠ (q.2, q.1)) := by
  have hlt : ∀ p ∈ emittedListSame C sim, p.1 < p.2 := by
    intro p hp
    obtain ⟨c, _, hpc⟩ := List.mem_flatMap.mp hp
    exact emitBlockSame_fst_lt C sim c p hpc
  have hnd : (emittedListSame C sim).Nodup :=
    nodup_bind_blocks _ _ (Finset.sort_nodup _ _) (emitBlockSame_nodup C sim)
      (emitBlockSame_snd C sim)
  refine ⟨fun p hp => ne_of_lt (hlt p hp), hlt, ?_⟩
  refine List.Pairwise.imp_of_mem ?_ hnd
  intro p q hp hq hpq
  refine ⟨hpq, ?_⟩
  intro he
  have h1 := hlt p hp
  have h2 := hlt q hq
  rw [he] at h1
  simp only at h1
  omega

/-- Wrap to 64 bits, the `std::size_t` arithmetic of
`KmersHandler::calculateKmers`. -/
def w64 (n : ℕ) : ℕ := n % 2 ^ 64

/-- The window count `alphabet_.length() - k_ + 1` of
`KmersHandler::calculateKmers`, computed in unsigned 64-bit arithmetic:
L - k + 1 for L ≥ k, wrapped around otherwise. -/
def kmersNumRaw (L k : ℕ) : ℕ := w64 (w64 (L + (2 ^ 64 - w64 k)) + 1)

/-- Model of `std::string::substr(pos, count)`: throws `std::out_of_range`
(`none`) when pos exceeds the size, else yields up to count characters
starting at pos. -/
def substr (s : List Char) (pos count : ℕ) : Option (List Char) :=
  if pos > s.length then none else some ((s.drop pos).take count)

/-- The window-enumeration loop of `KmersHandler::calculateKmers`, with the
remaining iteration count `kmersNum - i` as the second argument.  Each
iteration takes `substr(i, k)`; a new window string is recorded in
first-seen order, a repeated one only increments its multiplicity (the
total window count is tracked).  `Except.error` models the
`std::out_of_range` thrown by substr and carries the entries inserted into
the dictionary before the throw together with the total multiplicity so
far. -/
def calcKmersLoop (s : List Char) (k : ℕ) :
    ℕ → ℕ → List (List Char) → ℕ →
      Except (List (List Char) × ℕ) (List (List Char) × ℕ)
  | _, 0, seen, total => .ok (seen, total)
  | i, remaining + 1, seen, total =>
    match substr s i k with
    | none => .error (seen, total)
    | some w =>
      calcKmersLoop s k (i + 1) remaining
        (if w ∈ seen then seen else seen ++ [w]) (total + 1)

/-- `KmersHandler::calculateKmers` on sequence `s` with parameter `k`:
run the loop for `kmersNumRaw` iterations starting at window index 0 with
an empty dictionary. -/
def calculateKmers (s : List Char) (k : ℕ) :
    Except (List (List Char) × ℕ) (List (List Char) × ℕ) :=
  calcKmersLoop s k 0 (kmersNumRaw s.length k) [] 0

/-- C8 (failing input): for the sequence `"A"` (length 1) and k = 3 the
window count `L - k + 1` underflows in `std::size_t` to 2^64 - 1, so the
loop does not stop at zero windows: it inserts the short windows `"A"` and
`""` (total multiplicity 2) and then `substr(2, 3)` throws
`std::out_of_range` — instead of terminating normally with an empty
container as the claim requires. -/
theorem C8_length_below_k_underflows :
    List.length ['A'] < 3 ∧
    calculateKmers ['A'] 3 = Except.error ([['A'], []], 2) := by
  refine ⟨by norm_num, ?_⟩
  have e0 : kmersNumRaw (List.length ['A']) 3 = 2 ^ 64 - 1 := by
    norm_num [kmersNumRaw, w64]
  rw [calculateKmers, e0,
    show (2 ^ 64 - 1 : ℕ) = (2 ^ 64 - 2) + 1 from by norm_num,
    calcKmersLoop]
  norm_num [substr]
  rw [show (18446744073709551614 : ℕ) = 18446744073709551613 + 1 from by norm_num,
    calcKmersLoop]
  norm_num [substr]
  rw [show (18446744073709551613 : ℕ) = 18446744073709551612 + 1 from by norm_num,
    calcKmersLoop]
  norm_num [substr]

/-- A k-mer string. -/
abbrev Kmer := List Char

/-- A raw gene as the driver receives it: its sequence.  Modelled from the
spec: `Gene.hh` is not among the given sources; only its sequence matters
for the emitted edges (file positions are carried through unchanged). -/
structure GeneSeq where
  seq : List Char
  deriving DecidableEq

/-- The length-k windows W_0 .. W_{L-k} of a sequence (empty when L < k).
Modelled from the spec (section 4.2): `createAndCalculateAllKmers` is not
among the given sources. -/
def windows (k : ℕ) (s : List Char) : List Kmer :=
  (List.range (s.length + 1 - k)).map (fun i => (s.drop i).take k)

/-- One intern step of the KmerMapper.  Modelled from the spec (section
4.1): `KmerMapper.hh` is not among the given sources; the mapper state is
the list of distinct k-mers in first-seen order, and interning appends an
unseen k-mer. -/
def internOne (seen : List Kmer) (w : Kmer) : List Kmer :=
  if w ∈ seen then seen else seen ++ [w]

/-- Intern a stream of k-mers in order. -/
def internAll (seen : List Kmer) (ws : List Kmer) : List Kmer :=
  ws.foldl internOne seen

/-- The dense integer key assigned by the mapper: the position of the
k-mer in the first-seen list. -/
def keyOf : List Kmer → Kmer → ℕ
  | [], _ => 0
  | a :: rest, w => if a = w then 0 else keyOf rest w + 1

/-- The k-mer container built for a window list `ws` under the key
assignment `f`: the (key, multiplicity) pairs sorted by key ascending, the
cached largest key and the cached total multiplicity (one per window).
Modelled from the spec (section 4.2): `KmersContainer.hh` and the
construction code are not among the given sources. -/
def buildContainerF (f : Kmer → ℕ) (ws : List Kmer) : KmersContainer :=
  { kmers := ((ws.map f).toFinset.sort (· ≤ ·)).map
      (fun k => (k, (ws.map f).count k)),
    biggerKey := (ws.map f).foldr max 0,
    multiplicityNumber := ws.length }

lemma mem_le_foldr_max (l : List ℕ) : ∀ x ∈ l, x ≤ l.foldr max 0 := by
  induction l with
  | nil => simp
  | cons a l ih =>
    intro x hx
    rcases List.mem_cons.mp hx with rfl | hx2
    · exact le_max_left _ _
    · exact le_trans (ih x hx2) (le_max_right _ _)

lemma buildContainerF_wf (f : Kmer → ℕ) (ws : List Kmer) :
    (buildContainerF f ws).WF := by
  refine ⟨?_, ?_, ?_⟩
  · refine List.pairwise_map.mpr ?_
    have hs : ((ws.map f).toFinset.sort (· ≤ ·)).Pairwise (· ≤ ·) :=
      Finset.sort_sorted _ _
    have hn : ((ws.map f).toFinset.sort (· ≤ ·)).Pairwise (· ≠ ·) :=
      Finset.sort_nodup _ _
    exact (hs.and hn).imp fun h => lt_of_le_of_ne h.1 h.2
  · intro p hp
    obtain ⟨k, hk, he⟩ := List.mem_map.mp hp
    have hk2 : k ∈ ws.map f := by
      have := (Finset.mem_sort (α := ℕ) (· ≤ ·)).mp hk
      exact List.mem_toFinset.mp this
    rw [← he]
    exact mem_le_foldr_max _ k hk2
  · simp only [buildContainerF]
    show ws.length = _
    have h1 : (((ws.map f).toFinset.sort (· ≤ ·)).map
        (fun k => (k, (ws.map f).count k))).map Prod.snd =
        ((ws.map f).toFinset.sort (· ≤ ·)).map (fun k => (ws.map f).count k) := by
      rw [List.map_map]
      rfl
    rw [h1, ← List.sum_toFinset _ (Finset.sort_nodup _ _), Finset.sort_toFinset,
      List.sum_toFinset_count_eq_length, List.length_map]

lemma listMult_key_fun (g : ℕ → ℕ) (k : ℕ) (ks : List ℕ) (hn : ks.Nodup) :
    listMult (ks.map (fun x => (x, g x))) k = if k ∈ ks then g k else 0 := by
  induction ks with
  | nil => simp [listMult]
  | cons a ks ih =>
    rw [List.map_cons, listMult_cons, ih (List.nodup_cons.mp hn).2]
    by_cases hak : a = k
    · subst hak
      rw [if_pos rfl, if_neg (List.nodup_cons.mp hn).1, if_pos (List.mem_cons_self _ _)]
      omega
    · rw [if_neg hak]
      by_cases hk : k ∈ ks
      · rw [if_pos hk, if_pos (List.mem_cons_of_mem _ hk), zero_add]
      · rw [if_neg hk, if_neg (by simp [Ne.symm hak, hk] : ¬ k ∈ a :: ks)]

lemma multOf_buildContainerF (f : Kmer → ℕ) (ws : List Kmer) (k : ℕ) :
    multOf (buildContainerF f ws) k = (ws.map f).count k := by
  simp only [multOf, buildContainerF]
  rw [listMult_key_fun _ _ _ (Finset.sort_nodup _ _)]
  by_cases hk : k ∈ (ws.map f).toFinset.sort (· ≤ ·)
  · rw [if_pos hk]
  · rw [if_neg hk]
    have hk2 : k ∉ ws.map f := by
      intro hmem
      exact hk ((Finset.mem_sort (α := ℕ) (· ≤ ·)).mpr (List.mem_toFinset.mpr hmem))
    exact (List.count_eq_zero.mpr hk2).symm

lemma keysOf_buildContainerF (f : Kmer → ℕ) (ws : List Kmer) :
    keysOf (buildContainerF f ws) = (ws.map f).toFinset := by
  simp only [keysOf, buildContainerF]
  rw [listKeys, List.map_map]
  have h1 : (Prod.fst ∘ fun k => (k, (ws.map f).count k)) = id := rfl
  rw [h1, List.map_id, Finset.sort_toFinset]

lemma buildContainerF_congr {f g : Kmer → ℕ} {ws : List Kmer}
    (h : ∀ w ∈ ws, f w = g w) :
    buildContainerF f ws = buildContainerF g ws := by
  unfold buildContainerF
  rw [List.map_congr_left h]

lemma internAll_eq_append (ws : List Kmer) :
    ∀ seen : List Kmer, ∃ t, internAll seen ws = seen ++ t := by
  induction ws with
  | nil => exact fun seen => ⟨[], by simp [internAll]⟩
  | cons w ws ih =>
    intro seen
    rw [internAll, List.foldl_cons]
    by_cases hw : w ∈ seen
    · obtain ⟨t, ht⟩ := ih seen
      exact ⟨t, by rw [internAll] at ht; simpa [internOne, hw] using ht⟩
    · obtain ⟨t, ht⟩ := ih (seen ++ [w])
      refine ⟨[w] ++ t, ?_⟩
      rw [internAll] at ht
      simp only [internOne, if_neg hw]
      rw [ht, List.append_assoc]

lemma mem_internAll_self (ws : List Kmer) :
    ∀ (seen : List Kmer), ∀ w ∈ ws, w ∈ internAll seen ws := by
  induction ws with
  | nil => simp
  | cons v ws ih =>
    intro seen w hw
    rw [internAll, List.foldl_cons]
    rcases List.mem_cons.mp hw with rfl | hw2
    · rcases internAll_eq_append ws (internOne seen w) with ⟨t, ht⟩
      rw [internAll] at ht
      rw [ht]
      refine List.mem_append_left _ ?_
      by_cases hmem : w ∈ seen
      · simp [internOne, hmem]
      · simp [internOne, hmem]
    · exact ih (internOne seen v) w hw2

lemma internAll_nodup (ws : List Kmer) :
    ∀ seen : List Kmer, seen.Nodup → (internAll seen ws).Nodup := by
  induction ws with
  | nil => exact fun seen h => by simpa [internAll] using h
  | cons w ws ih =>
    intro seen hn
    rw [internAll, List.foldl_cons]
    refine ih (internOne seen w) ?_
    by_cases hw : w ∈ seen
    · simpa [internOne, hw] using hn
    · rw [internOne, if_neg hw]
      rw [List.nodup_append]
      exact ⟨hn, List.nodup_singleton w, fun a ha hb => hw (by
        rw [List.mem_singleton] at hb
        rwa [← hb])⟩

lemma keyOf_append {seen : List Kmer} {w : Kmer} (t : List Kmer) (h : w ∈ seen) :
    keyOf (seen ++ t) w = keyOf seen w := by
  induction seen with
  | nil => cases h
  | cons a seen ih =>
    rw [List.cons_append, keyOf, keyOf]
    by_cases hw : a = w
    · rw [if_pos hw, if_pos hw]
    · rw [if_neg hw, if_neg hw,
        ih (by rcases List.mem_cons.mp h with rfl | h2; exacts [absurd rfl hw, h2])]

lemma keyOf_inj {S : List Kmer} (hn : S.Nodup) :
    ∀ {x y : Kmer}, x ∈ S → y ∈ S → keyOf S x = keyOf S y → x = y := by
  induction S with
  | nil => intro x y hx; cases hx
  | cons a S ih =>
    intro x y hx hy he
    rw [keyOf, keyOf] at he
    by_cases hax : a = x <;> by_cases hay : a = y
    · rw [← hax, ← hay]
    · rw [if_pos hax, if_neg hay] at he
      omega
    · rw [if_neg hax, if_pos hay] at he
      omega
    · rw [if_neg hax, if_neg hay] at he
      have hx2 : x ∈ S := by
        rcases List.mem_cons.mp hx with rfl | h2
        exacts [absurd rfl hax, h2]
      have hy2 : y ∈ S := by
        rcases List.mem_cons.mp hy with rfl | h2
        exacts [absurd rfl hay, h2]
      exact ih (List.nodup_cons.mp hn).2 hx2 hy2 (by omega)

/-- Counting through an injective-on-the-relevant-set key assignment
preserves multiplicities. -/
lemma count_map_eq (f : Kmer → ℕ) (ws : List Kmer) (w : Kmer)
    (hw : ∀ x ∈ ws, f x = f w → x = w) :
    (ws.map f).count (f w) = ws.count w := by
  induction ws with
  | nil => rfl
  | cons a ws ih =>
    rw [List.map_cons, List.count_cons, List.count_cons,
      ih (fun x hx => hw x (List.mem_cons_of_mem _ hx))]
    have he : (f a = f w) ↔ (a = w) :=
      ⟨hw a (List.mem_cons_self _ _), fun e => by rw [e]⟩
    by_cases ha : a = w
    · rw [if_pos (by simpa using he.mpr ha), if_pos (by simpa using ha)]
    · rw [if_neg (by simpa using fun e => ha (he.mp e)), if_neg (by simpa using ha)]

/-- The Generalized Jaccard at the level of the k-mer strings themselves
(independent of any key assignment), following the spec's words. -/
def kmerJaccardOpt (ws1 ws2 : List Kmer) : Option ℚ :=
  let U := ws1.toFinset ∪ ws2.toFinset
  let smin := ∑ w ∈ U, min (ws1.count w) (ws2.count w)
  let smax := ∑ w ∈ U, max (ws1.count w) (ws2.count w)
  if smax = 0 then none else some ((smin : ℚ) / (smax : ℚ))

lemma toFinset_map_eq_image (f : Kmer → ℕ) (l : List Kmer) :
    (l.map f).toFinset = l.toFinset.image f := by
  ext x
  simp

/-- Key-assignment invariance: two containers built under any key
assignment that is injective on the union of the two window sets have the
same Generalized Jaccard as the window multisets themselves. -/
lemma generalizedJaccard_buildF (f : Kmer → ℕ) (ws1 ws2 : List Kmer)
    (hinj : ∀ x ∈ ws1.toFinset ∪ ws2.toFinset, ∀ y ∈ ws1.toFinset ∪ ws2.toFinset,
      f x = f y → x = y) :
    generalizedJaccard (buildContainerF f ws1) (buildContainerF f ws2) =
      kmerJaccardOpt ws1 ws2 := by
  simp only [generalizedJaccard, kmerJaccardOpt, keysOf_buildContainerF]
  have hU : (ws1.map f).toFinset ∪ (ws2.map f).toFinset =
      (ws1.toFinset ∪ ws2.toFinset).image f := by
    rw [toFinset_map_eq_image, toFinset_map_eq_image, Finset.image_union]
  have hcnt : ∀ w ∈ ws1.toFinset ∪ ws2.toFinset,
      multOf (buildContainerF f ws1) (f w) = ws1.count w ∧
      multOf (buildContainerF f ws2) (f w) = ws2.count w := by
    intro w hw
    constructor
    · rw [multOf_buildContainerF]
      refine count_map_eq f ws1 w ?_
      intro x hx
      exact hinj x (Finset.mem_union_left _ (List.mem_toFinset.mpr hx)) w hw
    · rw [multOf_buildContainerF]
      refine count_map_eq f ws2 w ?_
      intro x hx
      exact hinj x (Finset.mem_union_right _ (List.mem_toFinset.mpr hx)) w hw
  have emin : ∑ k ∈ (ws1.map f).toFinset ∪ (ws2.map f).toFinset,
      min (multOf (buildContainerF f ws1) k) (multOf (buildContainerF f ws2) k) =
      ∑ w ∈ ws1.toFinset ∪ ws2.toFinset, min (ws1.count w) (ws2.count w) := by
    rw [hU, Finset.sum_image hinj]
    refine Finset.sum_congr rfl fun w hw => ?_
    rw [(hcnt w hw).1, (hcnt w hw).2]
  have emax : ∑ k ∈ (ws1.map f).toFinset ∪ (ws2.map f).toFinset,
      max (multOf (buildContainerF f ws1) k) (multOf (buildContainerF f ws2) k) =
      ∑ w ∈ ws1.toFinset ∪ ws2.toFinset, max (ws1.count w) (ws2.count w) := by
    rw [hU, Finset.sum_image hinj]
    refine Finset.sum_congr rfl fun w hw => ?_
    rw [(hcnt w hw).1, (hcnt w hw).2]
  rw [emin, emax]

instance : Inhabited Gene := ⟨⟨0, ⟨[], 0, 0⟩⟩⟩

/-- The gene `g` has been built from the raw gene `gs`: correct cached
length, every window interned in the mapper state `S`, and the container
keyed through `S`. -/
def GeneBuiltUpTo (S : List Kmer) (k : ℕ) (gs : GeneSeq) (g : Gene) : Prop :=
  g.alphabetLength = gs.seq.length ∧
  (∀ w ∈ windows k gs.seq, w ∈ S) ∧
  g.container = buildContainerF (keyOf S) (windows k gs.seq)

/-- Keys of already-interned k-mers never change when the mapper grows, so
a built container is stable under mapper extension. -/
lemma geneBuilt_mono {S : List Kmer} {k : ℕ} {gs : GeneSeq} {g : Gene}
    (h : GeneBuiltUpTo S k gs g) (t : List Kmer) :
    GeneBuiltUpTo (S ++ t) k gs g := by
  obtain ⟨h1, h2, h3⟩ := h
  refine ⟨h1, fun w hw => List.mem_append_left _ (h2 w hw), ?_⟩
  rw [h3]
  exact buildContainerF_congr fun w hw => (keyOf_append t (h2 w hw)).symm

/-- `Gene::createAndCalculateAllKmers` for one gene: intern the windows,
then build the container keyed by the extended mapper state.  Modelled
from the spec (section 4.2). -/
def buildGene (k : ℕ) (seen : List Kmer) (gs : GeneSeq) : List Kmer × Gene :=
  let ws := windows k gs.seq
  let seen2 := internAll seen ws
  (seen2, ⟨gs.seq.length, buildContainerF (keyOf seen2) ws⟩)

/-- `Genome::createAndCalculateAllKmers`: build each gene in order,
threading the shared mapper state.  Modelled from the spec. -/
def buildGenome (k : ℕ) (seen : List Kmer) : List GeneSeq → List Kmer × List Gene
  | [] => (seen, [])
  | gs :: rest =>
    let p := buildGene k seen gs
    let q := buildGenome k p.1 rest
    (q.1, p.2 :: q.2)

/-- Building every genome up front with one shared mapper (the eager
mode's prepass). -/
def buildGenomes (k : ℕ) (seen : List Kmer) :
    List (List GeneSeq) → List Kmer × List (List Gene)
  | [] => (seen, [])
  | gl :: rest =>
    let p := buildGenome k seen gl
    let q := buildGenomes k p.1 rest
    (q.1, p.2 :: q.2)

lemma buildGene_state (k : ℕ) (seen : List Kmer) (gs : GeneSeq) :
    ∃ t, (buildGene k seen gs).1 = seen ++ t :=
  internAll_eq_append _ _

lemma buildGene_nodup (k : ℕ) {seen : List Kmer} (gs : GeneSeq)
    (h : seen.Nodup) : (buildGene k seen gs).1.Nodup :=
  internAll_nodup _ _ h

lemma buildGene_built (k : ℕ) (seen : List Kmer) (gs : GeneSeq) :
    GeneBuiltUpTo (buildGene k seen gs).1 k gs (buildGene k seen gs).2 :=
  ⟨rfl, fun w hw => mem_internAll_self _ _ w hw, rfl⟩

lemma buildGenome_state (k : ℕ) (gl : List GeneSeq) :
    ∀ seen, ∃ t, (buildGenome k seen gl).1 = seen ++ t := by
  induction gl with
  | nil => exact fun seen => ⟨[], by simp [buildGenome]⟩
  | cons gs rest ih =>
    intro seen
    obtain ⟨t1, h1⟩ := buildGene_state k seen gs
    obtain ⟨t2, h2⟩ := ih (buildGene k seen gs).1
    refine ⟨t1 ++ t2, ?_⟩
    show (buildGenome k (buildGene k seen gs).1 rest).1 = _
    rw [h2, h1, List.append_assoc]

lemma buildGenome_nodup (k : ℕ) (gl : List GeneSeq) :
    ∀ {seen}, seen.Nodup → (buildGenome k seen gl).1.Nodup := by
  induction gl with
  | nil => exact fun h => h
  | cons gs rest ih =>
    intro seen h
    exact ih (buildGene_nodup k gs h)

lemma buildGenome_built (k : ℕ) (gl : List GeneSeq) :
    ∀ seen, List.Forall₂ (GeneBuiltUpTo (buildGenome k seen gl).1 k) gl
      (buildGenome k seen gl).2 := by
  induction gl with
  | nil => exact fun seen => List.Forall₂.nil
  | cons gs rest ih =>
    intro seen
    show List.Forall₂ _ (gs :: rest) ((buildGene k seen gs).2 ::
      (buildGenome k (buildGene k seen gs).1 rest).2)
    refine List.Forall₂.cons ?_ (ih (buildGene k seen gs).1)
    obtain ⟨t, ht⟩ := buildGenome_state k rest (buildGene k seen gs).1
    show GeneBuiltUpTo (buildGenome k (buildGene k seen gs).1 rest).1 k gs _
    rw [ht]
    exact geneBuilt_mono (buildGene_built k seen gs) t

lemma buildGenomes_state (k : ℕ) (genomes : List (List GeneSeq)) :
    ∀ seen, ∃ t, (buildGenomes k seen genomes).1 = seen ++ t := by
  induction genomes with
  | nil => exact fun seen => ⟨[], by simp [buildGenomes]⟩
  | cons gl rest ih =>
    intro seen
    obtain ⟨t1, h1⟩ := buildGenome_state k gl seen
    obtain ⟨t2, h2⟩ := ih (buildGenome k seen gl).1
    refine ⟨t1 ++ t2, ?_⟩
    show (buildGenomes k (buildGenome k seen gl).1 rest).1 = _
    rw [h2, h1, List.append_assoc]

lemma buildGenomes_nodup (k : ℕ) (genomes : List (List GeneSeq)) :
    ∀ {seen}, seen.Nodup → (buildGenomes k seen genomes).1.Nodup := by
  induction genomes with
  | nil => exact fun h => h
  | cons gl rest ih =>
    intro seen h
    exact ih (buildGenome_nodup k gl h)

lemma buildGenomes_built (k : ℕ) (genomes : List (List GeneSeq)) :
    ∀ seen, List.Forall₂
      (fun gl genes =>
        List.Forall₂ (GeneBuiltUpTo (buildGenomes k seen genomes).1 k) gl genes)
      genomes (buildGenomes k seen genomes).2 := by
  induction genomes with
  | nil => exact fun seen => List.Forall₂.nil
  | cons gl rest ih =>
    intro seen
    show List.Forall₂ _ (gl :: rest) ((buildGenome k seen gl).2 ::
      (buildGenomes k (buildGenome k seen gl).1 rest).2)
    refine List.Forall₂.cons ?_ (ih (buildGenome k seen gl).1)
    obtain ⟨t, ht⟩ := buildGenomes_state k rest (buildGenome k seen gl).1
    have hbase := buildGenome_built k gl seen
    show List.Forall₂ (GeneBuiltUpTo (buildGenomes k (buildGenome k seen gl).1 rest).1 k) gl _
    rw [ht]
    exact hbase.imp fun a b h => geneBuilt_mono h t

/-- IEEE-style strict comparison on scores: any comparison involving NaN
(`none`) is false. -/
def oLt (x y : Option ℚ) : Bool :=
  match x, y with
  | some a, some b => decide (a < b)
  | _, _ => false

/-- IEEE-style equality on scores: any comparison involving NaN (`none`)
is false. -/
def oEq (x y : Option ℚ) : Bool :=
  match x, y with
  | some a, some b => decide (a = b)
  | _, _ => false

/-- The per-pair score function driving a comparison: the similarity of
row gene r and column gene c (out-of-range indices, never scanned by the
pipeline, default to an empty gene). -/
def pairSim (rowGenes colGenes : List Gene) : ℕ → ℕ → Option ℚ :=
  fun r c => calculateSimilarityGene (rowGenes.getD r default) (colGenes.getD c default)

/-- Edges of one different-genome comparison
(`calculateBidirectionalBestHitDifferentGenomes`): row phase then column
phase on the pair's score matrix. -/
def bbhPairEdgesDiff (rowGenes colGenes : List Gene) : Finset (ℕ × ℕ × Option ℚ) :=
  checkForBBH oLt oEq (some (-1)) rowGenes.length
    (calculateRow oLt oEq (some 0) colGenes.length (pairSim rowGenes colGenes))
    (pairSim rowGenes colGenes)

/-- Edges of one same-genome comparison
(`calculateBidirectionalBestHitSameGenome`). -/
def bbhPairEdgesSame (genes : List Gene) : Finset (ℕ × ℕ × Option ℚ) :=
  checkForBBHSame oLt oEq (some (-1)) genes.length
    (calculateRowSame oLt oEq (some 0) genes.length (pairSim genes genes))
    (matrixSame (some 0) (pairSim genes genes))

/-- Inner loop of the lazy driver: build each column genome just before
its pair, threading the per-outer-iteration mapper state. -/
def lazyInner (k : ℕ) (rowGenes : List Gene) :
    List (List GeneSeq) → List Kmer → List (Finset (ℕ × ℕ × Option ℚ))
  | [], _ => []
  | gl :: rest, st =>
    let p := buildGenome k st gl
    bbhPairEdgesDiff rowGenes p.2 :: lazyInner k rowGenes rest p.1

/-- Lazy mode of `Homology::calculateBidirectionalBestHit` (mode true):
each outer iteration starts a fresh KmerMapper, builds the row genome,
runs the same-genome comparison, then builds and compares each later
genome in turn.  The result lists, per comparison in driver order, the
emitted edge set. -/
def lazyRun (k : ℕ) : List (List GeneSeq) → List (List (Finset (ℕ × ℕ × Option ℚ)))
  | [] => []
  | gl :: rest =>
    let p := buildGenome k [] gl
    (bbhPairEdgesSame p.2 :: lazyInner k p.2 rest p.1) :: lazyRun k rest

/-- Pair iteration of the eager driver over the prebuilt genomes. -/
def eagerList : List (List Gene) → List (List (Finset (ℕ × ℕ × Option ℚ)))
  | [] => []
  | genes :: rest =>
    (bbhPairEdgesSame genes :: rest.map (bbhPairEdgesDiff genes)) :: eagerList rest

/-- Eager mode of `Homology::calculateBidirectionalBestHit` (mode false):
all k-mers are built up front with one shared KmerMapper, then the same
pair iteration runs. -/
def eagerRun (k : ℕ) (genomes : List (List GeneSeq)) :
    List (List (Finset (ℕ × ℕ × Option ℚ))) :=
  eagerList (buildGenomes k [] genomes).2

/-- Mapper-independent score of a gene pair: length filter, then the
string-level Generalized Jaccard of the window multisets. -/
def geneScoreSpec (k : ℕ) (gs1 gs2 : GeneSeq) : Option ℚ :=
  if gs1.seq.length < gs2.seq.length / 2 ∨ gs2.seq.length < gs1.seq.length / 2 then
    some 0
  else kmerJaccardOpt (windows k gs1.seq) (windows k gs2.seq)

/-- The empty gene (used for out-of-range indices, never scanned). -/
def defaultGeneSeq : GeneSeq := ⟨[]⟩

/-- Mapper-independent per-pair score function. -/
def pairSpecSim (k : ℕ) (gs1 gs2 : List GeneSeq) : ℕ → ℕ → Option ℚ :=
  fun r c => geneScoreSpec k (gs1.getD r defaultGeneSeq) (gs2.getD c defaultGeneSeq)

/-- Mapper-independent edge set of a different-genome comparison. -/
def specPairDiff (k : ℕ) (gr gc : List GeneSeq) : Finset (ℕ × ℕ × Option ℚ) :=
  checkForBBH oLt oEq (some (-1)) gr.length
    (calculateRow oLt oEq (some 0) gc.length (pairSpecSim k gr gc))
    (pairSpecSim k gr gc)

/-- Mapper-independent edge set of a same-genome comparison. -/
def specPairSame (k : ℕ) (gs : List GeneSeq) : Finset (ℕ × ℕ × Option ℚ) :=
  checkForBBHSame oLt oEq (some (-1)) gs.length
    (calculateRowSame oLt oEq (some 0) gs.length (pairSpecSim k gs gs))
    (matrixSame (some 0) (pairSpecSim k gs gs))

/-- Mapper-independent reference run, same pair order as both drivers. -/
def specRun (k : ℕ) : List (List GeneSeq) → List (List (Finset (ℕ × ℕ × Option ℚ)))
  | [] => []
  | gl :: rest => (specPairSame k gl :: rest.map (specPairDiff k gl)) :: specRun k rest

lemma windows_nil (k : ℕ) (hk : 0 < k) : windows k [] = [] := by
  have h : (1 : ℕ) - k = 0 := by omega
  simp [windows, h]

lemma geneBuilt_default (S : List Kmer) (k : ℕ) (hk : 0 < k) :
    GeneBuiltUpTo S k defaultGeneSeq default := by
  refine ⟨rfl, ?_, ?_⟩
  · intro w hw
    rw [show defaultGeneSeq.seq = [] from rfl, windows_nil k hk] at hw
    cases hw
  · show (default : Gene).container = _
    rw [show defaultGeneSeq.seq = [] from rfl, windows_nil k hk]
    show (⟨[], 0, 0⟩ : KmersContainer) = _
    simp [buildContainerF]

/-- The score of a pair of genes built over a common duplicate-free mapper
state is the mapper-independent score. -/
lemma calcSimGene_built (k : ℕ) (S : List Kmer) (hS : S.Nodup)
    {gs1 gs2 : GeneSeq} {g1 g2 : Gene}
    (h1 : GeneBuiltUpTo S k gs1 g1) (h2 : GeneBuiltUpTo S k gs2 g2) :
    calculateSimilarityGene g1 g2 = geneScoreSpec k gs1 gs2 := by
  obtain ⟨hl1, hm1, hc1⟩ := h1
  obtain ⟨hl2, hm2, hc2⟩ := h2
  have hinj : ∀ x ∈ (windows k gs1.seq).toFinset ∪ (windows k gs2.seq).toFinset,
      ∀ y ∈ (windows k gs1.seq).toFinset ∪ (windows k gs2.seq).toFinset,
      keyOf S x = keyOf S y → x = y := by
    intro x hx y hy he
    refine keyOf_inj hS ?_ ?_ he
    · rcases Finset.mem_union.mp hx with h | h
      exacts [hm1 x (List.mem_toFinset.mp h), hm2 x (List.mem_toFinset.mp h)]
    · rcases Finset.mem_union.mp hy with h | h
      exacts [hm1 y (List.mem_toFinset.mp h), hm2 y (List.mem_toFinset.mp h)]
  have hwf1 : g1.container.WF := by
    rw [hc1]
    exact buildContainerF_wf _ _
  have hwf2 : g2.container.WF := by
    rw [hc2]
    exact buildContainerF_wf _ _
  have hjac : generalizedJaccard g1.container g2.container =
      kmerJaccardOpt (windows k gs1.seq) (windows k gs2.seq) := by
    rw [hc1, hc2]
    exact generalizedJaccard_buildF _ _ _ hinj
  simp only [calculateSimilarityGene, geneScoreSpec, hl1, hl2]
  by_cases hf : gs1.seq.length < gs2.seq.length / 2 ∨
      gs2.seq.length < gs1.seq.length / 2
  · rw [if_pos hf, if_pos hf]
  · rw [if_neg hf, if_neg hf]
    by_cases hkn : g1.getKmersNum < g2.getKmersNum
    · rw [if_pos hkn, similarityCont_eq_jaccard _ _ hwf1 hwf2, hjac]
    · rw [if_neg hkn, similarityCont_eq_jaccard _ _ hwf2 hwf1,
        generalizedJaccard_comm, hjac]

lemma forall2_getD {R : GeneSeq → Gene → Prop} {gs : List GeneSeq}
    {genes : List Gene} (h : List.Forall₂ R gs genes)
    {d1 : GeneSeq} {d2 : Gene} (hd : R d1 d2) (i : ℕ) :
    R (gs.getD i d1) (genes.getD i d2) := by
  induction h generalizing i with
  | nil => simpa using hd
  | cons hrel hrest ih =>
    cases i with
    | zero => simpa using hrel
    | succ i => simpa using ih i

lemma pairSim_eq_spec (k : ℕ) (hk : 0 < k) (S : List Kmer) (hS : S.Nodup)
    {gs1 gs2 : List GeneSeq} {genes1 genes2 : List Gene}
    (h1 : List.Forall₂ (GeneBuiltUpTo S k) gs1 genes1)
    (h2 : List.Forall₂ (GeneBuiltUpTo S k) gs2 genes2) :
    pairSim genes1 genes2 = pairSpecSim k gs1 gs2 := by
  funext r c
  exact calcSimGene_built k S hS
    (forall2_getD h1 (geneBuilt_default S k hk) r)
    (forall2_getD h2 (geneBuilt_default S k hk) c)

lemma pairEdgesDiff_eq_spec (k : ℕ) (hk : 0 < k) (S : List Kmer) (hS : S.Nodup)
    {gs1 gs2 : List GeneSeq} {genes1 genes2 : List Gene}
    (h1 : List.Forall₂ (GeneBuiltUpTo S k) gs1 genes1)
    (h2 : List.Forall₂ (GeneBuiltUpTo S k) gs2 genes2) :
    bbhPairEdgesDiff genes1 genes2 = specPairDiff k gs1 gs2 := by
  unfold bbhPairEdgesDiff specPairDiff
  rw [pairSim_eq_spec k hk S hS h1 h2,
    show genes1.length = gs1.length from h1.length_eq.symm,
    show genes2.length = gs2.length from h2.length_eq.symm]

lemma pairEdgesSame_eq_spec (k : ℕ) (hk : 0 < k) (S : List Kmer) (hS : S.Nodup)
    {gs : List GeneSeq} {genes : List Gene}
    (h : List.Forall₂ (GeneBuiltUpTo S k) gs genes) :
    bbhPairEdgesSame genes = specPairSame k gs := by
  unfold bbhPairEdgesSame specPairSame
  rw [pairSim_eq_spec k hk S hS h h,
    show genes.length = gs.length from h.length_eq.symm]

lemma lazyInner_eq_spec (k : ℕ) (hk : 0 < k) (gsRow : List GeneSeq)
    (rowGenes : List Gene) :
    ∀ (rest : List (List GeneSeq)) (st : List Kmer), st.Nodup →
      List.Forall₂ (GeneBuiltUpTo st k) gsRow rowGenes →
      lazyInner k rowGenes rest st = rest.map (specPairDiff k gsRow) := by
  intro rest
  induction rest with
  | nil => intro st _ _; rfl
  | cons gl rest ih =>
    intro st hnd hrow
    obtain ⟨t, hts⟩ := buildGenome_state k gl st
    have hnd2 : (buildGenome k st gl).1.Nodup := buildGenome_nodup k gl hnd
    have hcol := buildGenome_built k gl st
    have hrow2 : List.Forall₂ (GeneBuiltUpTo (buildGenome k st gl).1 k) gsRow rowGenes := by
      rw [hts]
      exact hrow.imp fun a b h => geneBuilt_mono h t
    show bbhPairEdgesDiff rowGenes (buildGenome k st gl).2 ::
        lazyInner k rowGenes rest (buildGenome k st gl).1 = _
    rw [List.map_cons,
      pairEdgesDiff_eq_spec k hk (buildGenome k st gl).1 hnd2 hrow2 hcol,
      ih (buildGenome k st gl).1 hnd2 hrow2]

lemma lazyRun_eq_spec (k : ℕ) (hk : 0 < k) :
    ∀ genomes : List (List GeneSeq), lazyRun k genomes = specRun k genomes := by
  intro genomes
  induction genomes with
  | nil => rfl
  | cons gl rest ih =>
    have hnd : (buildGenome k [] gl).1.Nodup := buildGenome_nodup k gl List.nodup_nil
    have hbuilt := buildGenome_built k gl []
    show (bbhPairEdgesSame (buildGenome k [] gl).2 ::
        lazyInner k (buildGenome k [] gl).2 rest (buildGenome k [] gl).1) ::
        lazyRun k rest = _
    rw [pairEdgesSame_eq_spec k hk (buildGenome k [] gl).1 hnd hbuilt,
      lazyInner_eq_spec k hk gl (buildGenome k [] gl).2 rest (buildGenome k [] gl).1
        hnd hbuilt,
      ih]
    rfl

lemma map_eq_of_forall2 {α β γ : Type} {R : α → β → Prop} {f : β → γ} {g : α → γ} :
    ∀ {l1 : List α} {l2 : List β}, List.Forall₂ R l1 l2 →
      (∀ a b, R a b → f b = g a) → l2.map f = l1.map g := by
  intro l1 l2 h hfg
  induction h with
  | nil => rfl
  | cons hrel hrest ih => simp [hfg _ _ hrel, ih]

lemma eagerList_eq_spec (k : ℕ) (hk : 0 < k) (S : List Kmer) (hS : S.Nodup) :
    ∀ {gss : List (List GeneSeq)} {gl2 : List (List Gene)},
      List.Forall₂ (fun gl genes => List.Forall₂ (GeneBuiltUpTo S k) gl genes) gss gl2 →
      eagerList gl2 = specRun k gss := by
  intro gss gl2 h
  induction h with
  | nil => rfl
  | @cons gl genes gsRest genesRest hrel hrest ih =>
    show (bbhPairEdgesSame genes :: genesRest.map (bbhPairEdgesDiff genes)) ::
        eagerList genesRest = _
    rw [pairEdgesSame_eq_spec k hk S hS hrel,
      map_eq_of_forall2 hrest (fun a b hab => pairEdgesDiff_eq_spec k hk S hS hrel hab),
      ih]
    rfl

/-- C4: for every genome container and every positive k, the lazy mode
(fresh per-outer-iteration KmerMapper, k-mers rebuilt around each pair)
and the eager mode (all k-mers built up front with one shared KmerMapper)
emit exactly the same edge set for every comparison of the driver: the
whole outputs can differ only in line order. -/
theorem C4_lazy_and_eager_modes_emit_equal_edge_sets (k : ℕ) (hk : 0 < k)
    (genomes : List (List GeneSeq)) :
    lazyRun k genomes = eagerRun k genomes := by
  rw [lazyRun_eq_spec k hk genomes]
  unfold eagerRun
  exact (eagerList_eq_spec k hk (buildGenomes k [] genomes).1
    (buildGenomes_nodup k genomes List.nodup_nil)
    (buildGenomes_built k genomes [])).symm

theorem C4_witness :
    lazyRun 2 [[⟨['A', 'C', 'A', 'C']⟩, ⟨['G', 'G', 'G']⟩], [⟨['A', 'C', 'A']⟩]] =
      eagerRun 2 [[⟨['A', 'C', 'A', 'C']⟩, ⟨['G', 'G', 'G']⟩], [⟨['A', 'C', 'A']⟩]] :=
  C4_lazy_and_eager_modes_emit_equal_edge_sets 2 (by decide) _

end PanDelos
